import Mathlib

/-!
Shallow embedding of the chunkr chunking engine (src/chunk.rs) and of the
ingestion pipeline's embedding cache and batch logic (src/insert.rs).

Rust strings are modelled as lists of characters (`Str`); `str::len()` (a byte
count in Rust) is modelled by `byteLen`, which sums the UTF-8 sizes of the
characters, while `chars().count()` is `List.length`.  Stateful loops become
explicit folds or structural recursions.  Each definition mirrors one Rust
function and is named after it where Lean allows.
-/

set_option linter.unusedVariables false

abbrev Str := List Char

/-- Byte length of a string, as Rust's `str::len()`: the sum of the UTF-8
sizes of its characters. -/
def byteLen (s : Str) : Nat := (s.map Char.utf8Size).sum

/-- Rust's `char::is_whitespace`: the Unicode White_Space property, an
explicit list of code points. -/
def rustIsWhitespace (c : Char) : Bool :=
  decide ((0x09 ≤ c.toNat ∧ c.toNat ≤ 0x0D) ∨ c.toNat = 0x20 ∨ c.toNat = 0x85 ∨
    c.toNat = 0xA0 ∨ c.toNat = 0x1680 ∨ (0x2000 ≤ c.toNat ∧ c.toNat ≤ 0x200A) ∨
    c.toNat = 0x2028 ∨ c.toNat = 0x2029 ∨ c.toNat = 0x202F ∨ c.toNat = 0x205F ∨
    c.toNat = 0x3000)

/-- Rust's `char::to_ascii_lowercase`. -/
def asciiLower (c : Char) : Char :=
  if 'A' ≤ c ∧ c ≤ 'Z' then Char.ofNat (c.toNat + 32) else c

/-- Rust's `str::trim_start` (drop leading Unicode whitespace). -/
def trimStart (s : Str) : Str := s.dropWhile rustIsWhitespace

/-- Rust's `str::trim_end` (drop trailing Unicode whitespace). -/
def trimEnd (s : Str) : Str := (s.reverse.dropWhile rustIsWhitespace).reverse

/-- Rust's `str::trim`. -/
def rustTrim (s : Str) : Str := trimEnd (trimStart s)

/-- Worker for `split_whitespace`: `acc` is the word accumulated so far. -/
def splitWhitespaceGo : Str → Str → List Str
  | acc, [] => if acc.isEmpty then [] else [acc]
  | acc, c :: rest =>
    if rustIsWhitespace c then
      if acc.isEmpty then splitWhitespaceGo [] rest
      else acc :: splitWhitespaceGo [] rest
    else splitWhitespaceGo (acc ++ [c]) rest

/-- Rust's `str::split_whitespace`: maximal runs of non-whitespace characters,
empty pieces dropped. -/
def split_whitespace (s : Str) : List Str := splitWhitespaceGo [] s

/-- The `collapse_whitespace` loop of `normalize_text` (src/chunk.rs:117-132):
each maximal run of whitespace becomes one ASCII space; the boolean is the
`last_space` flag. -/
def collapseWs : Bool → Str → Str
  | _, [] => []
  | lastSpace, c :: rest =>
    if rustIsWhitespace c then
      if lastSpace then collapseWs true rest else ' ' :: collapseWs true rest
    else c :: collapseWs false rest

/-- Worker for Rust's `str::split_inclusive('\n')`: pieces keep their
terminating newline; an empty input yields no pieces. -/
def splitInclNlGo : Str → Str → List Str
  | acc, [] => if acc.isEmpty then [] else [acc]
  | acc, c :: rest =>
    if c = '\n' then (acc ++ [c]) :: splitInclNlGo [] rest
    else splitInclNlGo (acc ++ [c]) rest

/-- The per-line map of Rust's `str::lines`: strip one trailing newline, and a
carriage return just before it. -/
def stripLineEnd (l : Str) : Str :=
  match l.getLast? with
  | some c =>
    if c = '\n' then
      let l1 := l.dropLast
      match l1.getLast? with
      | some c2 => if c2 = '\r' then l1.dropLast else l1
      | none => l1
    else l
  | none => l

/-- Rust's `str::lines`. -/
def rustLines (s : Str) : List Str := (splitInclNlGo [] s).map stripLineEnd

/-- The chunking options of `ChunkConfig` (src/config.rs:92-103) used by the
chunking engine (the `emit_jsonl` and metadata flags play no role in the
functions embedded here). -/
structure ChunkConfig where
  normalize_unicode : Bool
  collapse_whitespace : Bool
  strip_headers : Bool
  min_paragraph_chars : Nat
  max_paragraph_chars : Nat
  target_chunk_chars : Nat
  max_chunk_chars : Nat
  chunk_overlap_chars : Nat
deriving DecidableEq, Repr

/-- `normalize_text` (src/chunk.rs:112-134).  The external NFKC normalization
of the `unicode_normalization` crate is not part of this repository and is
modelled as an arbitrary string transformation passed in as `nfkc`; the
collapse step is embedded exactly. -/
def normalize_text (nfkc : Str → Str) (input : Str) (cfg : ChunkConfig) : Str :=
  let out := if cfg.normalize_unicode then nfkc input else input
  if cfg.collapse_whitespace then collapseWs false out else out

/-- `push_paragraph` (src/chunk.rs:151-179): returns the updated output list
(the Rust function also clears `current`, which the caller models by passing
`[]` afterwards). -/
def push_paragraph (cfg : ChunkConfig) (out : List Str) (current : Str) : List Str :=
  let trimmed := rustTrim current
  if trimmed.isEmpty then out
  else if cfg.strip_headers ∧
      (trimmed.head? = some '#' ∨ trimmed.map asciiLower = "table of contents".toList ∨
        trimmed.map asciiLower = "contents".toList) then out
  else
    let cleaned := trimmed.map (fun c => if c = '\n' then ' ' else c)
    if byteLen cleaned < cfg.min_paragraph_chars then
      match out.getLast? with
      | some last => out.dropLast ++ [last ++ ' ' :: cleaned]
      | none => [cleaned]
    else out ++ [cleaned]

/-- One iteration of the line loop of `split_paragraphs` (src/chunk.rs:139-146);
the state is the pair (paragraphs so far, current paragraph buffer). -/
def splitParagraphsStep (cfg : ChunkConfig) (st : List Str × Str) (line : Str) :
    List Str × Str :=
  if (rustTrim line).isEmpty then (push_paragraph cfg st.1 st.2, [])
  else (st.1, st.2 ++ rustTrim line ++ ['\n'])

/-- `split_paragraphs` (src/chunk.rs:136-149). -/
def split_paragraphs (text : Str) (cfg : ChunkConfig) : List Str :=
  let st := (rustLines text).foldl (splitParagraphsStep cfg) ([], [])
  push_paragraph cfg st.1 st.2

/-- The long-word slicing loop of `split_by_max_bytes` (src/chunk.rs:304-313):
`acc` is the piece being accumulated since the byte index `start`; a cut is
made at the first character boundary whose byte offset from `start` reaches
`max_len`. -/
def sliceGo (M : Nat) : Str → Str → List Str
  | acc, [] => if acc.isEmpty then [] else [acc]
  | acc, c :: rest =>
    if M ≤ byteLen acc then acc :: sliceGo M [c] rest
    else sliceGo M (acc ++ [c]) rest

/-- Slicing of a word longer than the cap at character boundaries
(src/chunk.rs:299-314). -/
def sliceLongWord (word : Str) (M : Nat) : List Str := sliceGo M [] word

/-- The word loop of `split_by_max_bytes` (src/chunk.rs:298-328): greedy
packing of words into pieces of byte length at most `M`, with over-long words
sliced; `current` is the piece under construction. -/
def sbmbWords (M : Nat) : List Str → Str → List Str
  | [], current => if current.isEmpty then [] else [current]
  | w :: ws, current =>
    if M < byteLen w then
      (if current.isEmpty then [] else [rustTrim current]) ++
        sliceLongWord w M ++ sbmbWords M ws []
    else if current.isEmpty then sbmbWords M ws w
    else if byteLen current + 1 + byteLen w ≤ M then
      sbmbWords M ws (current ++ ' ' :: w)
    else current :: sbmbWords M ws w

/-- `split_by_max_bytes` (src/chunk.rs:289-333). -/
def split_by_max_bytes (text : Str) (max_len : Nat) : List Str :=
  if max_len = 0 then []
  else if byteLen text ≤ max_len then [text]
  else
    let out := sbmbWords max_len (split_whitespace text) []
    if out.isEmpty then [text] else out

/-- `overlap_tail` (src/chunk.rs:335-345): the last `overlap` characters
(character count, not bytes) of a closed chunk. -/
def overlap_tail (text : Str) (overlap : Nat) : Str :=
  if overlap = 0 then []
  else if text.length ≤ overlap then text
  else text.drop (text.length - overlap)

/-- The sentence scan of `split_large_paragraph` (src/chunk.rs:242-258): cut
after `.`, `!` or `?` when the next character is whitespace; `buf` is the
sentence buffer. -/
def sentenceScan : Str → Str → List Str
  | buf, [] => if (rustTrim buf).isEmpty then [] else [rustTrim buf]
  | buf, c :: rest =>
    if c = '.' ∨ c = '!' ∨ c = '?' then
      match rest with
      | [] =>
        if (rustTrim (buf ++ [c])).isEmpty then [] else [rustTrim (buf ++ [c])]
      | next :: _ =>
        if rustIsWhitespace next then rustTrim (buf ++ [c]) :: sentenceScan [] rest
        else sentenceScan (buf ++ [c]) rest
    else sentenceScan (buf ++ [c]) rest

/-- The greedy sentence-packing loop of `split_large_paragraph`
(src/chunk.rs:260-281), over the already sliced sentence pieces `subs`. -/
def slpPack (max_len : Nat) : List Str → Str → List Str
  | [], current => if (rustTrim current).isEmpty then [] else [rustTrim current]
  | sub :: subs, current =>
    if max_len < byteLen current + byteLen sub + 1 ∧ ¬current.isEmpty then
      rustTrim current :: slpPack max_len subs sub
    else slpPack max_len subs (if current.isEmpty then sub else current ++ ' ' :: sub)

/-- `split_large_paragraph` (src/chunk.rs:241-287). -/
def split_large_paragraph (paragraph : Str) (max_len : Nat) : List Str :=
  let sentences := sentenceScan [] paragraph
  let subs := sentences.flatMap fun s =>
    if max_len < byteLen s then split_by_max_bytes s max_len else [s]
  let parts := slpPack max_len subs []
  if parts.isEmpty then [paragraph] else parts

/-- State of the chunk-assembly loop of `build_chunks` (src/chunk.rs:182-184):
emitted chunks, the chunk under construction, and the overlap tail carried
from the last emitted chunk. -/
structure AsmState where
  chunks : List Str
  current : Str
  last_overlap : Str
deriving DecidableEq, Repr

/-- The value of `current` after the branch at src/chunk.rs:202-222 for one
bounded part: on overflow of a non-empty `current`, the old `current` is
replaced (the overlap tail joined with the part when that fits the cap,
otherwise the part alone); otherwise the part is appended. -/
def seedCurrent (cfg : ChunkConfig) (current last_overlap part : Str) : Str :=
  if cfg.max_chunk_chars < byteLen current + byteLen part + 1 ∧ ¬current.isEmpty then
    if ¬last_overlap.isEmpty then
      let overlap_chunk := last_overlap ++ ' ' :: part
      if cfg.max_chunk_chars < byteLen overlap_chunk then part else overlap_chunk
    else part
  else if current.isEmpty then part else current ++ ' ' :: part

/-- One iteration of the inner part loop of `build_chunks`
(src/chunk.rs:201-230): update `current`, then emit it when it has reached
`target_chunk_chars`. -/
def asmStep (cfg : ChunkConfig) (s : AsmState) (part : Str) : AsmState :=
  let cur := seedCurrent cfg s.current s.last_overlap part
  if cfg.target_chunk_chars ≤ byteLen cur then
    ⟨s.chunks ++ [cur], [], overlap_tail cur cfg.chunk_overlap_chars⟩
  else
    ⟨s.chunks, cur, s.last_overlap⟩

/-- The stream of bounded parts one paragraph contributes to the assembly loop
(src/chunk.rs:187-199). -/
def boundedParts (cfg : ChunkConfig) (para : Str) : List Str :=
  let parts :=
    if cfg.max_paragraph_chars < byteLen para then
      split_large_paragraph para cfg.max_paragraph_chars
    else [para]
  parts.flatMap fun part =>
    if cfg.max_chunk_chars < byteLen part then
      split_by_max_bytes part cfg.max_chunk_chars
    else [part]

/-- `build_chunks` (src/chunk.rs:181-239). -/
def build_chunks (paragraphs : List Str) (cfg : ChunkConfig) : List Str :=
  let parts := paragraphs.flatMap (boundedParts cfg)
  let s := parts.foldl (asmStep cfg) ⟨[], [], []⟩
  s.chunks ++ (if s.current.isEmpty then [] else [s.current])

/-- The numeric metadata fields one chunk record receives in the writer loop
of `chunk_file` (src/chunk.rs:67-106): `chunk_index`, `char_start`,
`char_end`, and the written text. -/
structure RecordMeta where
  chunk_index : Nat
  char_start : Nat
  char_end : Nat
  text : Str
deriving DecidableEq, Repr

/-- The writer loop of `chunk_file` (src/chunk.rs:67-106) restricted to its
numeric bookkeeping: `idx` enumerates chunks, `cursor` starts at 0 and
advances by each chunk's byte length; `char_end = cursor + text.len()`. -/
def writeRecordsGo : Nat → Nat → List Str → List RecordMeta
  | _, _, [] => []
  | idx, cursor, t :: ts =>
    ⟨idx, cursor, cursor + byteLen t, t⟩ :: writeRecordsGo (idx + 1) (cursor + byteLen t) ts

/-- The records written for one file's chunk list by `chunk_file`. -/
def chunk_file_records (chunks : List Str) : List RecordMeta :=
  writeRecordsGo 0 0 chunks

/-- Total byte length of the first `i` chunks; the value of the writer's
cursor when record `i` is written. -/
def prefixBytes (chunks : List Str) (i : Nat) : Nat :=
  ((chunks.take i).map byteLen).sum

/-- `hash_text` (src/insert.rs:544-549) computes a 64-bit `DefaultHasher`
fingerprint of the text.  The hasher is external library code; it is modelled
as the injective fingerprint that maps a text to itself (a stable,
collision-free abstraction of the hash). -/
def hash_text (text : Str) : Str := text

/-- `EmbeddingCache` (src/insert.rs:508-512), polymorphic in the stored
vector payload (`Vec<f32>` in the source; the claims never inspect the float
values).  `order` is the `VecDeque` of keys, front first; `values` is the
`HashMap` as an association list with distinct keys. -/
structure EmbeddingCache (α : Type) where
  max_entries : Nat
  order : List Str
  values : List (Str × α)
deriving DecidableEq, Repr

/-- `HashMap::get` on the association list. -/
def lookupKey (k : Str) : List (Str × α) → Option α
  | [] => none
  | (k', v) :: rest => if k' = k then some v else lookupKey k rest

/-- `HashMap::insert` on the association list: replace in place, or append. -/
def insertAssoc (k : Str) (v : α) : List (Str × α) → List (Str × α)
  | [] => [(k, v)]
  | (k', v') :: rest =>
    if k' = k then (k, v) :: rest else (k', v') :: insertAssoc k v rest

/-- `HashMap::remove` on the association list. -/
def removeKey (k : Str) (m : List (Str × α)) : List (Str × α) :=
  m.filter fun kv => kv.1 ≠ k

/-- `EmbeddingCache::new` (src/insert.rs:515-521). -/
def EmbeddingCache.empty (α : Type) (max_entries : Nat) : EmbeddingCache α :=
  ⟨max_entries, [], []⟩

/-- `EmbeddingCache::get` (src/insert.rs:523-526).  The receiver is an
immutable borrow in the source, so the cache state is unchanged by a probe. -/
def EmbeddingCache.get (c : EmbeddingCache α) (text : Str) : Option α :=
  lookupKey (hash_text text) c.values

/-- The eviction loop of `EmbeddingCache::insert` (src/insert.rs:534-540):
while the map is over capacity, pop the queue head and remove it from the
map; stop if the queue empties. -/
def evictLoop (maxE : Nat) : List Str → List (Str × α) → List Str × List (Str × α)
  | [], values => ([], values)
  | k :: rest, values =>
    if values.length ≤ maxE then (k :: rest, values)
    else evictLoop maxE rest (removeKey k values)

/-- The pre-eviction half of `EmbeddingCache::insert` (src/insert.rs:528-533):
append the key to the order queue only when it is new, then store the value. -/
def EmbeddingCache.insertRaw (c : EmbeddingCache α) (text : Str) (v : α) :
    EmbeddingCache α :=
  let key := hash_text text
  let order := if (lookupKey key c.values).isSome then c.order else c.order ++ [key]
  ⟨c.max_entries, order, insertAssoc key v c.values⟩

/-- `EmbeddingCache::insert` (src/insert.rs:528-541). -/
def EmbeddingCache.insert (c : EmbeddingCache α) (text : Str) (v : α) :
    EmbeddingCache α :=
  let c1 := c.insertRaw text v
  let ov := evictLoop c1.max_entries c1.order c1.values
  ⟨c1.max_entries, ov.1, ov.2⟩

/-- An operation on the embedding cache: a probe or an insertion. -/
inductive CacheOp (α : Type) where
  | get (text : Str)
  | ins (text : Str) (v : α)

/-- Effect of one cache operation on the cache state; a `get` takes `&self`
in the source and leaves the state unchanged. -/
def applyCacheOp (c : EmbeddingCache α) : CacheOp α → EmbeddingCache α
  | .get _ => c
  | .ins t v => c.insert t v

/-- Effect of a sequence of cache operations. -/
def applyCacheOps (c : EmbeddingCache α) (ops : List (CacheOp α)) : EmbeddingCache α :=
  ops.foldl applyCacheOp c

/-- The input-length cap applied before embedding (src/insert.rs:293-295):
if `max_input_chars > 0` and the BYTE length exceeds it, keep the first
`max_input_chars` CHARACTERS. -/
def truncateInput (maxI : Nat) (t : Str) : Str :=
  if 0 < maxI ∧ maxI < byteLen t then t.take maxI else t

/-- The cache-probe loop of `process_batch` (src/insert.rs:270-278): the
records whose (untruncated) text misses the cache.  Every probe happens
before any embedding request or cache insertion of the batch. -/
def batchMisses (c : EmbeddingCache α) (texts : List Str) : List Str :=
  texts.filter fun t => (c.get t).isNone

/-- The embedding loop over the cache misses (src/insert.rs:282-306): each
miss is truncated, embedded by one HTTP request, and the vector is inserted
into the cache under the truncated text.  The sub-batch tasks only affect the
interleaving of the insertions, never the set of requests; the model performs
them in order. -/
def processMisses (embed : Str → α) (maxI : Nat) :
    EmbeddingCache α → List Str → EmbeddingCache α
  | c, [] => c
  | c, t :: ts =>
    let tt := truncateInput maxI t
    processMisses embed maxI (c.insert tt (embed tt)) ts

/-- The embedding phase of `process_batch` (src/insert.rs:267-317) for one
batch of record texts: probe all records first, then issue one embedding
request per miss.  Returns the number of embedding HTTP requests issued and
the cache after the batch. -/
def process_batch (embed : Str → α) (maxI : Nat) (c : EmbeddingCache α)
    (texts : List Str) : Nat × EmbeddingCache α :=
  let misses := batchMisses c texts
  (misses.length, processMisses embed maxI c misses)

/-- Whether an HTTP status code is a success, as `reqwest`'s
`StatusCode::is_success` (2xx). -/
def statusIsSuccess (status : Nat) : Bool := decide (200 ≤ status ∧ status < 300)

/-- `ensure_qdrant_collection` (src/insert.rs:386-410) after issuing the PUT.
The outcome of `req.send().await` is passed in: a transport-level error `e`
(re-raised by the `?` operator) or an HTTP status code.  Returns the
function's result together with whether the failure warning was logged. -/
def ensure_qdrant_collection (sendResult : Except ε Nat) : Except ε Unit × Bool :=
  match sendResult with
  | .error e => (.error e, false)
  | .ok status => (.ok (), !statusIsSuccess status)

/-- A string containing at least one non-whitespace character.  Paragraphs
produced by the Paragraphizer always satisfy this (they are trimmed and
non-empty). -/
def hasNonWs (s : Str) : Prop := ∃ c ∈ s, rustIsWhitespace c = false

/-- Invariant of the assembly loop: `last_overlap` is the overlap tail of the
most recently emitted chunk (empty before the first emission). -/
def lastOverlapInv (cfg : ChunkConfig) (s : AsmState) : Prop :=
  s.last_overlap =
    match s.chunks.getLast? with
    | some c => overlap_tail c cfg.chunk_overlap_chars
    | none => []

/-- Keys currently stored in the cache map. -/
def cacheKeys (c : EmbeddingCache α) : List Str := c.values.map Prod.fst

/-- Structural well-formedness of the embedding cache, maintained by every
`insert` from the empty cache: the order queue has no duplicates and holds
exactly the stored keys. -/
def CacheWF (c : EmbeddingCache α) : Prop :=
  c.order.Nodup ∧ (∀ k, k ∈ c.order ↔ k ∈ cacheKeys c)

/-- Every key stored in the cache has at most `maxI` characters; this is what
inserting only truncated texts maintains. -/
def keysCharBounded (maxI : Nat) (c : EmbeddingCache α) : Prop :=
  ∀ kv ∈ c.values, (kv : Str × α).1.length ≤ maxI

/-- Configuration for the overlap counterexample: two paragraphs that both
reach `target_chunk_chars` exactly, with room to spare under
`max_chunk_chars`. -/
def c1cfg : ChunkConfig := ⟨false, false, false, 0, 100, 5, 100, 3⟩

/-- Configuration exhibiting the discarded-current slip: a part that
overflows `max_chunk_chars` while `current` is non-empty and below
`target_chunk_chars`. -/
def c2cfg : ChunkConfig := ⟨false, false, false, 0, 100, 10, 10, 5⟩

/-- Configuration for the multi-byte cap overshoot: a two-character
4-byte word against a 3-byte cap. -/
def c3cfg : ChunkConfig := ⟨false, false, false, 0, 100, 3, 3, 0⟩

@[simp]
theorem byteLen_nil : byteLen [] = 0 := rfl

@[simp]
theorem byteLen_cons (c : Char) (s : Str) :
    byteLen (c :: s) = c.utf8Size + byteLen s := by
  simp [byteLen]

@[simp]
theorem byteLen_append (s t : Str) : byteLen (s ++ t) = byteLen s + byteLen t := by
  simp [byteLen]

@[simp]
theorem byteLen_reverse (s : Str) : byteLen s.reverse = byteLen s := by
  simp [byteLen, List.sum_reverse]

theorem length_le_byteLen (s : Str) : s.length ≤ byteLen s := by
  induction s with
  | nil => simp
  | cons c rest ih =>
    have := Char.utf8Size_pos c
    simp only [List.length_cons, byteLen_cons]
    omega

theorem byteLen_dropWhile_le (p : Char → Bool) (s : Str) :
    byteLen (s.dropWhile p) ≤ byteLen s := by
  induction s with
  | nil => simp
  | cons c rest ih =>
    by_cases h : p c
    · simp only [List.dropWhile_cons, h, if_true]
      have := Char.utf8Size_pos c
      simp only [byteLen_cons]
      omega
    · simp [List.dropWhile_cons, h]

theorem byteLen_trimStart_le (s : Str) : byteLen (trimStart s) ≤ byteLen s :=
  byteLen_dropWhile_le _ s

theorem byteLen_trimEnd_le (s : Str) : byteLen (trimEnd s) ≤ byteLen s := by
  have h := byteLen_dropWhile_le rustIsWhitespace s.reverse
  simpa [trimEnd] using h

theorem byteLen_rustTrim_le (s : Str) : byteLen (rustTrim s) ≤ byteLen s :=
  le_trans (byteLen_trimEnd_le _) (byteLen_trimStart_le s)

theorem mem_dropWhile_of_not (p : Char → Bool) (c : Char) (s : Str)
    (hc : p c = false) (hm : c ∈ s) : c ∈ s.dropWhile p := by
  induction s with
  | nil => cases hm
  | cons d rest ih =>
    by_cases h : p d
    · have hne : c ≠ d := fun he => by rw [he] at hc; rw [hc] at h; cases h
      have : c ∈ rest := by
        rcases hm with _ | hm
        · exact absurd rfl hne
        · assumption
      simpa [List.dropWhile_cons, h] using ih this
    · simpa [List.dropWhile_cons, h] using hm

theorem nonws_mem_rustTrim (c : Char) (s : Str)
    (hc : rustIsWhitespace c = false) (hm : c ∈ s) : c ∈ rustTrim s := by
  have h1 : c ∈ trimStart s := mem_dropWhile_of_not _ _ _ hc hm
  have h2 : c ∈ (trimStart s).reverse := by simpa using h1
  have h3 : c ∈ (trimStart s).reverse.dropWhile rustIsWhitespace :=
    mem_dropWhile_of_not _ _ _ hc h2
  simpa [rustTrim, trimEnd] using h3

theorem hasNonWs_rustTrim (s : Str) (h : hasNonWs s) : hasNonWs (rustTrim s) := by
  obtain ⟨c, hm, hc⟩ := h
  exact ⟨c, nonws_mem_rustTrim c s hc hm, hc⟩

theorem head_dropWhile_not (p : Char → Bool) (s : Str) (c : Char)
    (h : (s.dropWhile p).head? = some c) : p c = false := by
  induction s with
  | nil => simp [List.dropWhile] at h
  | cons d rest ih =>
    by_cases hd : p d
    · exact ih (by simpa [List.dropWhile_cons, hd] using h)
    · have hcd : c = d := by
        simp [List.dropWhile_cons, hd] at h
        exact h.symm
      rw [hcd]
      exact Bool.not_eq_true _ |>.mp hd

theorem hasNonWs_of_rustTrim_ne_nil (s : Str) (h : ¬(rustTrim s).isEmpty) :
    hasNonWs (rustTrim s) := by
  have hne : rustTrim s ≠ [] := by
    intro hnil
    rw [hnil] at h
    exact h rfl
  have hrt : rustTrim s = ((trimStart s).reverse.dropWhile rustIsWhitespace).reverse := rfl
  have hdne : (trimStart s).reverse.dropWhile rustIsWhitespace ≠ [] := by
    intro hnil
    rw [hrt, hnil] at hne
    exact hne rfl
  obtain ⟨c, d', hcd⟩ := List.exists_cons_of_ne_nil hdne
  have hcw : rustIsWhitespace c = false :=
    head_dropWhile_not _ _ _ (by rw [hcd]; rfl)
  refine ⟨c, ?_, hcw⟩
  rw [hrt, hcd]
  simp

theorem splitWhitespaceGo_sound (s : Str) : ∀ (acc : Str),
    (∀ c ∈ acc, rustIsWhitespace c = false) →
    ∀ w ∈ splitWhitespaceGo acc s,
      w ≠ [] ∧ (∀ c ∈ w, rustIsWhitespace c = false) ∧ ∀ c ∈ w, c ∈ acc ∨ c ∈ s := by
  induction s with
  | nil =>
    intro acc hacc w hw
    by_cases he : acc = []
    · subst he
      simp [splitWhitespaceGo] at hw
    · rw [splitWhitespaceGo, if_neg (by simpa [List.isEmpty_eq_false] using he)] at hw
      simp only [List.mem_singleton] at hw
      subst hw
      exact ⟨he, hacc, fun c hc => Or.inl hc⟩
  | cons c rest ih =>
    intro acc hacc w hw
    rw [splitWhitespaceGo] at hw
    by_cases hws : rustIsWhitespace c
    · rw [if_pos hws] at hw
      by_cases he : acc = []
      · rw [if_pos (by simp [he])] at hw
        obtain ⟨h1, h2, h3⟩ := ih [] (by simp) w hw
        exact ⟨h1, h2, fun d hd => (h3 d hd).elim (by simp) (fun h => Or.inr (by simp [h]))⟩
      · rw [if_neg (by simpa [List.isEmpty_eq_false] using he)] at hw
        rcases List.mem_cons.mp hw with rfl | hw
        · exact ⟨he, hacc, fun d hd => Or.inl hd⟩
        · obtain ⟨h1, h2, h3⟩ := ih [] (by simp) w hw
          exact ⟨h1, h2, fun d hd => (h3 d hd).elim (by simp) (fun h => Or.inr (by simp [h]))⟩
    · rw [if_neg hws] at hw
      have hacc' : ∀ d ∈ acc ++ [c], rustIsWhitespace d = false := by
        intro d hd
        rcases List.mem_append.mp hd with h | h
        · exact hacc d h
        · simp only [List.mem_singleton] at h
          rw [h]
          exact Bool.not_eq_true _ |>.mp hws
      obtain ⟨h1, h2, h3⟩ := ih (acc ++ [c]) hacc' w hw
      refine ⟨h1, h2, fun d hd => ?_⟩
      rcases h3 d hd with h | h
      · rcases List.mem_append.mp h with h' | h'
        · exact Or.inl h'
        · simp only [List.mem_singleton] at h'
          exact Or.inr (by simp [h'])
      · exact Or.inr (List.mem_cons_of_mem _ h)

theorem split_whitespace_sound (s : Str) :
    ∀ w ∈ split_whitespace s,
      w ≠ [] ∧ (∀ c ∈ w, rustIsWhitespace c = false) ∧ ∀ c ∈ w, c ∈ s := by
  intro w hw
  obtain ⟨h1, h2, h3⟩ := splitWhitespaceGo_sound s [] (by simp) w hw
  exact ⟨h1, h2, fun c hc => (h3 c hc).elim (by simp) id⟩

theorem splitWhitespaceGo_ne_nil (s : Str) : ∀ (acc : Str),
    hasNonWs s ∨ acc ≠ [] → splitWhitespaceGo acc s ≠ [] := by
  induction s with
  | nil =>
    intro acc h
    have he : acc ≠ [] := by
      rcases h with h | h
      · obtain ⟨c, hc, _⟩ := h
        cases hc
      · exact h
    rw [splitWhitespaceGo, if_neg (by simpa [List.isEmpty_eq_false] using he)]
    simp
  | cons c rest ih =>
    intro acc h
    rw [splitWhitespaceGo]
    by_cases hws : rustIsWhitespace c
    · rw [if_pos hws]
      have hrest : hasNonWs rest ∨ acc ≠ [] := by
        rcases h with h | h
        · obtain ⟨d, hd, hdw⟩ := h
          rcases List.mem_cons.mp hd with rfl | hd
          · rw [hdw] at hws; cases hws
          · exact Or.inl ⟨d, hd, hdw⟩
        · exact Or.inr h
      by_cases he : acc = []
      · rw [if_pos (by simp [he])]
        have : hasNonWs rest := by
          rcases hrest with h' | h'
          · exact h'
          · exact absurd he h'
        exact ih [] (Or.inl this)
      · rw [if_neg (by simpa [List.isEmpty_eq_false] using he)]
        simp
    · rw [if_neg hws]
      exact ih (acc ++ [c]) (Or.inr (by simp))

theorem split_whitespace_ne_nil (s : Str) (h : hasNonWs s) :
    split_whitespace s ≠ [] :=
  splitWhitespaceGo_ne_nil s [] (Or.inl h)

theorem utf8Size_space : (' ' : Char).utf8Size = 1 := by decide

theorem sliceGo_bound (M szb : Nat) (hM : 1 ≤ M) (hszb : 1 ≤ szb) :
    ∀ (word acc : Str), (∀ c ∈ word, c.utf8Size ≤ szb) →
    byteLen acc ≤ M + (szb - 1) →
    ∀ p ∈ sliceGo M acc word, byteLen p ≤ M + (szb - 1) := by
  intro word
  induction word with
  | nil =>
    intro acc hword hacc p hp
    by_cases he : acc.isEmpty
    · simp [sliceGo, he] at hp
    · rw [sliceGo, if_neg he] at hp
      simp only [List.mem_singleton] at hp
      subst hp
      exact hacc
  | cons c rest ih =>
    intro acc hword hacc p hp
    have hc : c.utf8Size ≤ szb := hword c (by simp)
    have hrest : ∀ d ∈ rest, d.utf8Size ≤ szb := fun d hd => hword d (by simp [hd])
    rw [sliceGo] at hp
    by_cases hcut : M ≤ byteLen acc
    · rw [if_pos hcut] at hp
      rcases List.mem_cons.mp hp with rfl | hp
      · exact hacc
      · refine ih [c] hrest ?_ p hp
        simp only [byteLen_cons, byteLen_nil]
        omega
    · rw [if_neg hcut] at hp
      refine ih (acc ++ [c]) hrest ?_ p hp
      simp only [byteLen_append, byteLen_cons, byteLen_nil]
      omega

theorem sliceGo_pieces_ne_nil (M : Nat) (hM : 1 ≤ M) :
    ∀ (word acc : Str), ∀ p ∈ sliceGo M acc word, p ≠ [] := by
  intro word
  induction word with
  | nil =>
    intro acc p hp
    by_cases he : acc.isEmpty
    · simp [sliceGo, he] at hp
    · rw [sliceGo, if_neg he] at hp
      simp only [List.mem_singleton] at hp
      subst hp
      simpa [List.isEmpty_eq_false] using he
  | cons c rest ih =>
    intro acc p hp
    rw [sliceGo] at hp
    by_cases hcut : M ≤ byteLen acc
    · rw [if_pos hcut] at hp
      rcases List.mem_cons.mp hp with rfl | hp
      · intro hnil
        rw [hnil] at hcut
        simp only [byteLen_nil] at hcut
        omega
      · exact ih [c] p hp
    · rw [if_neg hcut] at hp
      exact ih (acc ++ [c]) p hp

theorem sliceGo_chars (M : Nat) :
    ∀ (word acc : Str), ∀ p ∈ sliceGo M acc word, ∀ c ∈ p, c ∈ acc ∨ c ∈ word := by
  intro word
  induction word with
  | nil =>
    intro acc p hp c hc
    by_cases he : acc.isEmpty
    · simp [sliceGo, he] at hp
    · rw [sliceGo, if_neg he] at hp
      simp only [List.mem_singleton] at hp
      subst hp
      exact Or.inl hc
  | cons d rest ih =>
    intro acc p hp c hc
    rw [sliceGo] at hp
    by_cases hcut : M ≤ byteLen acc
    · rw [if_pos hcut] at hp
      rcases List.mem_cons.mp hp with rfl | hp
      · exact Or.inl hc
      · rcases ih [d] p hp c hc with h | h
        · simp only [List.mem_singleton] at h
          exact Or.inr (by simp [h])
        · exact Or.inr (List.mem_cons_of_mem _ h)
    · rw [if_neg hcut] at hp
      rcases ih (acc ++ [d]) p hp c hc with h | h
      · rcases List.mem_append.mp h with h' | h'
        · exact Or.inl h'
        · simp only [List.mem_singleton] at h'
          exact Or.inr (by simp [h'])
      · exact Or.inr (List.mem_cons_of_mem _ h)

theorem sliceGo_join (M : Nat) :
    ∀ (word acc : Str), (sliceGo M acc word).flatten = acc ++ word := by
  intro word
  induction word with
  | nil =>
    intro acc
    by_cases he : acc.isEmpty
    · have hae : acc = [] := by simpa [List.isEmpty_iff] using he
      simp [sliceGo, he, hae]
    · rw [sliceGo, if_neg he]
      simp
  | cons c rest ih =>
    intro acc
    rw [sliceGo]
    by_cases hcut : M ≤ byteLen acc
    · rw [if_pos hcut]
      simp [List.flatten, ih [c]]
    · rw [if_neg hcut]
      simp [ih (acc ++ [c])]

theorem sliceGo_ne_nil (M : Nat) :
    ∀ (word acc : Str), acc ≠ [] ∨ word ≠ [] → sliceGo M acc word ≠ [] := by
  intro word
  induction word with
  | nil =>
    intro acc h
    have he : acc ≠ [] := by
      rcases h with h | h
      · exact h
      · exact absurd rfl h
    rw [sliceGo, if_neg (by simpa [List.isEmpty_eq_false] using he)]
    simp
  | cons c rest ih =>
    intro acc h
    rw [sliceGo]
    by_cases hcut : M ≤ byteLen acc
    · rw [if_pos hcut]
      simp
    · rw [if_neg hcut]
      exact ih (acc ++ [c]) (Or.inl (by simp))

theorem hasNonWs_of_ne_nil_all (w : Str) (hne : w ≠ [])
    (hall : ∀ c ∈ w, rustIsWhitespace c = false) : hasNonWs w := by
  obtain ⟨c, t, rfl⟩ := List.exists_cons_of_ne_nil hne
  exact ⟨c, by simp, hall c (by simp)⟩

theorem sbmbWords_bound (M szb : Nat) (hM : 1 ≤ M) (hszb : 1 ≤ szb) :
    ∀ (ws : List Str) (current : Str),
      (∀ w ∈ ws, ∀ c ∈ w, c.utf8Size ≤ szb) →
      byteLen current ≤ M →
      ∀ p ∈ sbmbWords M ws current, byteLen p ≤ M + (szb - 1) := by
  intro ws
  induction ws with
  | nil =>
    intro current hws hcur p hp
    by_cases he : current.isEmpty
    · simp [sbmbWords, he] at hp
    · rw [sbmbWords, if_neg he] at hp
      simp only [List.mem_singleton] at hp
      subst hp
      omega
  | cons w ws ih =>
    intro current hws hcur p hp
    have hw : ∀ c ∈ w, c.utf8Size ≤ szb := hws w (by simp)
    have hws' : ∀ u ∈ ws, ∀ c ∈ u, c.utf8Size ≤ szb := fun u hu => hws u (by simp [hu])
    rw [sbmbWords] at hp
    by_cases hlong : M < byteLen w
    · rw [if_pos hlong] at hp
      rcases List.mem_append.mp hp with hp | hp
      · rcases List.mem_append.mp hp with hp | hp
        · by_cases he : current.isEmpty
          · simp [he] at hp
          · rw [if_neg he] at hp
            simp only [List.mem_singleton] at hp
            subst hp
            have := byteLen_rustTrim_le current
            omega
        · exact sliceGo_bound M szb hM hszb w [] hw (by simp) p hp
      · exact ih [] hws' (by simp) p hp
    · rw [if_neg hlong] at hp
      by_cases he : current.isEmpty
      · rw [if_pos he] at hp
        exact ih w hws' (by omega) p hp
      · rw [if_neg he] at hp
        by_cases hfit : byteLen current + 1 + byteLen w ≤ M
        · rw [if_pos hfit] at hp
          refine ih (current ++ ' ' :: w) hws' ?_ p hp
          simp only [byteLen_append, byteLen_cons, utf8Size_space]
          omega
        · rw [if_neg hfit] at hp
          rcases List.mem_cons.mp hp with rfl | hp
          · omega
          · exact ih w hws' (by omega) p hp

theorem sbmbWords_ne_nil (M : Nat) :
    ∀ (ws : List Str) (current : Str),
      (∀ w ∈ ws, w ≠ []) → (ws ≠ [] ∨ current ≠ []) →
      sbmbWords M ws current ≠ [] := by
  intro ws
  induction ws with
  | nil =>
    intro current hws h
    have he : current ≠ [] := by
      rcases h with h | h
      · exact absurd rfl h
      · exact h
    rw [sbmbWords, if_neg (by simpa [List.isEmpty_eq_false] using he)]
    simp
  | cons w ws ih =>
    intro current hws h
    have hwne : w ≠ [] := hws w (by simp)
    have hws' : ∀ u ∈ ws, u ≠ [] := fun u hu => hws u (by simp [hu])
    rw [sbmbWords]
    by_cases hlong : M < byteLen w
    · rw [if_pos hlong]
      intro hnil
      rcases List.append_eq_nil.mp hnil with ⟨h1, _⟩
      rcases List.append_eq_nil.mp h1 with ⟨_, h2⟩
      exact sliceGo_ne_nil M w [] (Or.inr hwne) h2
    · rw [if_neg hlong]
      by_cases he : current.isEmpty
      · rw [if_pos he]
        exact ih w hws' (Or.inr hwne)
      · rw [if_neg he]
        by_cases hfit : byteLen current + 1 + byteLen w ≤ M
        · rw [if_pos hfit]
          exact ih (current ++ ' ' :: w) hws' (Or.inr (by simp))
        · rw [if_neg hfit]
          simp

theorem sbmbWords_nonws (M : Nat) (hM : 1 ≤ M) :
    ∀ (ws : List Str) (current : Str),
      (∀ w ∈ ws, w ≠ [] ∧ ∀ c ∈ w, rustIsWhitespace c = false) →
      (current = [] ∨ hasNonWs current) →
      ∀ p ∈ sbmbWords M ws current, hasNonWs p := by
  intro ws
  induction ws with
  | nil =>
    intro current hws hcur p hp
    by_cases he : current.isEmpty
    · simp [sbmbWords, he] at hp
    · rw [sbmbWords, if_neg he] at hp
      simp only [List.mem_singleton] at hp
      subst hp
      rcases hcur with h | h
      · rw [h] at he; simp at he
      · exact h
  | cons w ws ih =>
    intro current hws hcur p hp
    obtain ⟨hwne, hwnw⟩ := hws w (by simp)
    have hws' : ∀ u ∈ ws, u ≠ [] ∧ ∀ c ∈ u, rustIsWhitespace c = false :=
      fun u hu => hws u (by simp [hu])
    have hwNonWs : hasNonWs w := hasNonWs_of_ne_nil_all w hwne hwnw
    rw [sbmbWords] at hp
    by_cases hlong : M < byteLen w
    · rw [if_pos hlong] at hp
      rcases List.mem_append.mp hp with hp | hp
      · rcases List.mem_append.mp hp with hp | hp
        · by_cases he : current.isEmpty
          · simp [he] at hp
          · rw [if_neg he] at hp
            simp only [List.mem_singleton] at hp
            subst hp
            rcases hcur with h | h
            · rw [h] at he; simp at he
            · exact hasNonWs_rustTrim current h
        · have hpne : p ≠ [] := sliceGo_pieces_ne_nil M hM w [] p hp
          refine hasNonWs_of_ne_nil_all p hpne fun c hc => ?_
          rcases sliceGo_chars M w [] p hp c hc with h | h
          · cases h
          · exact hwnw c h
      · exact ih [] hws' (Or.inl rfl) p hp
    · rw [if_neg hlong] at hp
      by_cases he : current.isEmpty
      · rw [if_pos he] at hp
        exact ih w hws' (Or.inr hwNonWs) p hp
      · rw [if_neg he] at hp
        by_cases hfit : byteLen current + 1 + byteLen w ≤ M
        · rw [if_pos hfit] at hp
          refine ih (current ++ ' ' :: w) hws' (Or.inr ?_) p hp
          obtain ⟨c, hcm, hcw⟩ := hwNonWs
          exact ⟨c, by simp [hcm], hcw⟩
        · rw [if_neg hfit] at hp
          rcases List.mem_cons.mp hp with rfl | hp
          · rcases hcur with h | h
            · rw [h] at he; simp at he
            · exact h
          · exact ih w hws' (Or.inr hwNonWs) p hp

theorem split_by_max_bytes_bound (text : Str) (M szb : Nat) (hM : 1 ≤ M)
    (hszb : 1 ≤ szb) (hchars : ∀ c ∈ text, c.utf8Size ≤ szb) (hnw : hasNonWs text) :
    ∀ p ∈ split_by_max_bytes text M, byteLen p ≤ M + (szb - 1) := by
  intro p hp
  simp only [split_by_max_bytes] at hp
  rw [if_neg (by omega)] at hp
  by_cases hle : byteLen text ≤ M
  · rw [if_pos hle] at hp
    simp only [List.mem_singleton] at hp
    subst hp
    omega
  · rw [if_neg hle] at hp
    have hwords := split_whitespace_sound text
    have hout : sbmbWords M (split_whitespace text) [] ≠ [] :=
      sbmbWords_ne_nil M _ [] (fun w hw => (hwords w hw).1)
        (Or.inl (split_whitespace_ne_nil text hnw))
    rw [if_neg (by simpa [List.isEmpty_eq_false] using hout)] at hp
    refine sbmbWords_bound M szb hM hszb _ [] ?_ (by simp) p hp
    intro w hw c hc
    exact hchars c ((hwords w hw).2.2 c hc)

theorem split_by_max_bytes_nonws (text : Str) (M : Nat) (hnw : hasNonWs text) :
    ∀ p ∈ split_by_max_bytes text M, hasNonWs p := by
  intro p hp
  simp only [split_by_max_bytes] at hp
  by_cases hM : M = 0
  · rw [if_pos hM] at hp
    cases hp
  · rw [if_neg hM] at hp
    by_cases hle : byteLen text ≤ M
    · rw [if_pos hle] at hp
      simp only [List.mem_singleton] at hp
      subst hp
      exact hnw
    · rw [if_neg hle] at hp
      by_cases hout : (sbmbWords M (split_whitespace text) []).isEmpty
      · rw [if_pos hout] at hp
        simp only [List.mem_singleton] at hp
        subst hp
        exact hnw
      · rw [if_neg hout] at hp
        have hwords := split_whitespace_sound text
        exact sbmbWords_nonws M (by omega) _ []
          (fun w hw => ⟨(hwords w hw).1, (hwords w hw).2.1⟩) (Or.inl rfl) p hp

theorem split_by_max_bytes_ne_nil (text : Str) (M : Nat) (hM : 1 ≤ M)
    (hne : text ≠ []) : split_by_max_bytes text M ≠ [] := by
  simp only [split_by_max_bytes]
  rw [if_neg (by omega)]
  by_cases hle : byteLen text ≤ M
  · rw [if_pos hle]
    simp
  · rw [if_neg hle]
    by_cases hout : (sbmbWords M (split_whitespace text) []).isEmpty
    · rw [if_pos hout]
      simp
    · rw [if_neg hout]
      simpa [List.isEmpty_eq_false] using hout

theorem sliceLongWord_join (word : Str) (M : Nat) :
    (sliceLongWord word M).flatten = word := by
  simpa [sliceLongWord] using sliceGo_join M word []

theorem punct_not_ws (c : Char) (h : c = '.' ∨ c = '!' ∨ c = '?') :
    rustIsWhitespace c = false := by
  rcases h with rfl | rfl | rfl <;> decide

theorem sentenceScan_nonws (s : Str) :
    ∀ (buf : Str), ∀ p ∈ sentenceScan buf s, hasNonWs p := by
  induction s with
  | nil =>
    intro buf p hp
    by_cases he : (rustTrim buf).isEmpty
    · simp [sentenceScan, he] at hp
    · rw [sentenceScan, if_neg he] at hp
      simp only [List.mem_singleton] at hp
      subst hp
      exact hasNonWs_of_rustTrim_ne_nil buf he
  | cons c rest ih =>
    intro buf p hp
    simp only [sentenceScan] at hp
    by_cases hpunct : c = '.' ∨ c = '!' ∨ c = '?'
    · rw [if_pos hpunct] at hp
      cases rest with
      | nil =>
        have hp2 : p ∈ (if (rustTrim (buf ++ [c])).isEmpty then ([] : List Str)
            else [rustTrim (buf ++ [c])]) := hp
        by_cases he : (rustTrim (buf ++ [c])).isEmpty
        · simp [he] at hp2
        · rw [if_neg he] at hp2
          simp only [List.mem_singleton] at hp2
          subst hp2
          exact hasNonWs_of_rustTrim_ne_nil _ he
      | cons next rest' =>
        have hp2 : p ∈ (if rustIsWhitespace next then
            rustTrim (buf ++ [c]) :: sentenceScan [] (next :: rest')
            else sentenceScan (buf ++ [c]) (next :: rest')) := hp
        by_cases hws : rustIsWhitespace next
        · rw [if_pos hws] at hp2
          rcases List.mem_cons.mp hp2 with rfl | hp2
          · exact ⟨c, nonws_mem_rustTrim c _ (punct_not_ws c hpunct) (by simp),
              punct_not_ws c hpunct⟩
          · exact ih [] p hp2
        · rw [if_neg hws] at hp2
          exact ih (buf ++ [c]) p hp2
    · rw [if_neg hpunct] at hp
      exact ih (buf ++ [c]) p hp

theorem slpPack_nonws (M : Nat) :
    ∀ (subs : List Str) (current : Str),
      (∀ u ∈ subs, hasNonWs u) → (current = [] ∨ hasNonWs current) →
      ∀ p ∈ slpPack M subs current, hasNonWs p := by
  intro subs
  induction subs with
  | nil =>
    intro current hsubs hcur p hp
    by_cases he : (rustTrim current).isEmpty
    · simp [slpPack, he] at hp
    · rw [slpPack, if_neg he] at hp
      simp only [List.mem_singleton] at hp
      subst hp
      exact hasNonWs_of_rustTrim_ne_nil _ he
  | cons sub subs ih =>
    intro current hsubs hcur p hp
    have hsub : hasNonWs sub := hsubs sub (by simp)
    have hsubs' : ∀ u ∈ subs, hasNonWs u := fun u hu => hsubs u (by simp [hu])
    rw [slpPack] at hp
    by_cases hflush : M < byteLen current + byteLen sub + 1 ∧ ¬current.isEmpty
    · rw [if_pos hflush] at hp
      rcases List.mem_cons.mp hp with rfl | hp
      · rcases hcur with h | h
        · rw [h] at hflush
          simp at hflush
        · exact hasNonWs_rustTrim current h
      · exact ih sub hsubs' (Or.inr hsub) p hp
    · rw [if_neg hflush] at hp
      by_cases he : current.isEmpty
      · rw [if_pos he] at hp
        exact ih _ hsubs' (Or.inr hsub) p hp
      · rw [if_neg he] at hp
        refine ih _ hsubs' (Or.inr ?_) p hp
        obtain ⟨d, hdm, hdw⟩ := hsub
        exact ⟨d, by simp [hdm], hdw⟩

theorem split_large_paragraph_nonws (para : Str) (M : Nat) (hnw : hasNonWs para) :
    ∀ p ∈ split_large_paragraph para M, hasNonWs p := by
  intro p hp
  simp only [split_large_paragraph] at hp
  by_cases hparts :
      (slpPack M ((sentenceScan [] para).flatMap fun s =>
        if M < byteLen s then split_by_max_bytes s M else [s]) []).isEmpty
  · rw [if_pos hparts] at hp
    simp only [List.mem_singleton] at hp
    subst hp
    exact hnw
  · rw [if_neg hparts] at hp
    refine slpPack_nonws M _ [] ?_ (Or.inl rfl) p hp
    intro u hu
    obtain ⟨sent, hsent, hu⟩ := List.mem_flatMap.mp hu
    have hsnw : hasNonWs sent := sentenceScan_nonws para [] sent hsent
    by_cases hlong : M < byteLen sent
    · rw [if_pos hlong] at hu
      exact split_by_max_bytes_nonws sent M hsnw u hu
    · rw [if_neg hlong] at hu
      simp only [List.mem_singleton] at hu
      subst hu
      exact hsnw

theorem boundedParts_bound (cfg : ChunkConfig) (para : Str)
    (hM : 1 ≤ cfg.max_chunk_chars) (hnw : hasNonWs para) :
    ∀ part ∈ boundedParts cfg para, byteLen part ≤ cfg.max_chunk_chars + 3 := by
  intro part hp
  simp only [boundedParts] at hp
  obtain ⟨p0, hp0, hpart⟩ := List.mem_flatMap.mp hp
  have hp0nw : hasNonWs p0 := by
    by_cases hbig : cfg.max_paragraph_chars < byteLen para
    · rw [if_pos hbig] at hp0
      exact split_large_paragraph_nonws para _ hnw p0 hp0
    · rw [if_neg hbig] at hp0
      simp only [List.mem_singleton] at hp0
      subst hp0
      exact hnw
  by_cases hbig2 : cfg.max_chunk_chars < byteLen p0
  · rw [if_pos hbig2] at hpart
    have hb := split_by_max_bytes_bound p0 cfg.max_chunk_chars 4 hM (by omega)
      (fun c _ => Char.utf8Size_le_four c) hp0nw part hpart
    omega
  · rw [if_neg hbig2] at hpart
    simp only [List.mem_singleton] at hpart
    subst hpart
    omega

theorem seedCurrent_bound (cfg : ChunkConfig) (B : Nat) (hB : cfg.max_chunk_chars ≤ B)
    (current last_overlap part : Str)
    (hcur : byteLen current ≤ B) (hpart : byteLen part ≤ B) :
    byteLen (seedCurrent cfg current last_overlap part) ≤ B := by
  simp only [seedCurrent]
  by_cases h1 : cfg.max_chunk_chars < byteLen current + byteLen part + 1 ∧ ¬current.isEmpty
  · rw [if_pos h1]
    by_cases h2 : ¬last_overlap.isEmpty
    · rw [if_pos h2]
      by_cases h3 : cfg.max_chunk_chars < byteLen (last_overlap ++ ' ' :: part)
      · rw [if_pos h3]
        exact hpart
      · rw [if_neg h3]
        omega
    · rw [if_neg h2]
      exact hpart
  · rw [if_neg h1]
    by_cases he : current.isEmpty
    · rw [if_pos he]
      exact hpart
    · rw [if_neg he]
      have hfit : ¬ cfg.max_chunk_chars < byteLen current + byteLen part + 1 :=
        fun hlt => h1 ⟨hlt, he⟩
      simp only [byteLen_append, byteLen_cons, utf8Size_space]
      omega

theorem asmStep_bound (cfg : ChunkConfig) (B : Nat) (hB : cfg.max_chunk_chars ≤ B)
    (s : AsmState) (part : Str) (hpart : byteLen part ≤ B)
    (hchunks : ∀ c ∈ s.chunks, byteLen c ≤ B) (hcur : byteLen s.current ≤ B) :
    (∀ c ∈ (asmStep cfg s part).chunks, byteLen c ≤ B) ∧
      byteLen (asmStep cfg s part).current ≤ B := by
  have hseed := seedCurrent_bound cfg B hB s.current s.last_overlap part hcur hpart
  simp only [asmStep]
  by_cases hemit :
      cfg.target_chunk_chars ≤ byteLen (seedCurrent cfg s.current s.last_overlap part)
  · rw [if_pos hemit]
    refine ⟨fun c hc => ?_, by simp⟩
    rcases List.mem_append.mp hc with h | h
    · exact hchunks c h
    · simp only [List.mem_singleton] at h
      subst h
      exact hseed
  · rw [if_neg hemit]
    exact ⟨hchunks, hseed⟩

theorem asmFold_bound (cfg : ChunkConfig) (B : Nat) (hB : cfg.max_chunk_chars ≤ B) :
    ∀ (parts : List Str) (s : AsmState), (∀ p ∈ parts, byteLen p ≤ B) →
    (∀ c ∈ s.chunks, byteLen c ≤ B) → byteLen s.current ≤ B →
    (∀ c ∈ (parts.foldl (asmStep cfg) s).chunks, byteLen c ≤ B) ∧
      byteLen (parts.foldl (asmStep cfg) s).current ≤ B := by
  intro parts
  induction parts with
  | nil =>
    intro s hparts hchunks hcur
    exact ⟨hchunks, hcur⟩
  | cons part parts ih =>
    intro s hparts hchunks hcur
    obtain ⟨h1, h2⟩ := asmStep_bound cfg B hB s part (hparts part (by simp)) hchunks hcur
    exact ih (asmStep cfg s part) (fun p hp => hparts p (by simp [hp])) h1 h2

theorem asmStep_lastOverlapInv (cfg : ChunkConfig) (s : AsmState) (part : Str)
    (h : lastOverlapInv cfg s) : lastOverlapInv cfg (asmStep cfg s part) := by
  simp only [asmStep]
  by_cases hemit :
      cfg.target_chunk_chars ≤ byteLen (seedCurrent cfg s.current s.last_overlap part)
  · rw [if_pos hemit]
    simp only [lastOverlapInv, List.getLast?_concat]
  · rw [if_neg hemit]
    exact h

theorem asmFold_lastOverlapInv (cfg : ChunkConfig) :
    ∀ (parts : List Str) (s : AsmState), lastOverlapInv cfg s →
      lastOverlapInv cfg (parts.foldl (asmStep cfg) s) := by
  intro parts
  induction parts with
  | nil => intro s h; exact h
  | cons part parts ih =>
    intro s h
    exact ih (asmStep cfg s part) (asmStep_lastOverlapInv cfg s part h)

theorem init_lastOverlapInv (cfg : ChunkConfig) :
    lastOverlapInv cfg ⟨[], [], []⟩ := rfl

theorem seedCurrent_overlap (cfg : ChunkConfig) (current last_overlap part : Str)
    (hcur : ¬current.isEmpty)
    (hover : cfg.max_chunk_chars < byteLen current + byteLen part + 1)
    (hlo : ¬last_overlap.isEmpty)
    (hfit : byteLen (last_overlap ++ ' ' :: part) ≤ cfg.max_chunk_chars) :
    seedCurrent cfg current last_overlap part = last_overlap ++ ' ' :: part := by
  simp only [seedCurrent]
  rw [if_pos ⟨hover, hcur⟩, if_pos hlo, if_neg (by omega)]

theorem overlap_tail_eq_drop (L : Str) (K : Nat) (hK : 0 < K) (hlt : K < L.length) :
    overlap_tail L K = L.drop (L.length - K) := by
  simp only [overlap_tail]
  rw [if_neg (by omega), if_neg (by omega)]

theorem length_overlap_tail (L : Str) (K : Nat) (hK : 0 < K) (hlt : K < L.length) :
    (overlap_tail L K).length = K := by
  rw [overlap_tail_eq_drop L K hK hlt, List.length_drop]
  omega

theorem prefixBytes_zero (chunks : List Str) : prefixBytes chunks 0 = 0 := by
  simp [prefixBytes]

theorem prefixBytes_cons (t : Str) (ts : List Str) (i : Nat) :
    prefixBytes (t :: ts) (i + 1) = byteLen t + prefixBytes ts i := by
  simp [prefixBytes, List.take_succ_cons]

theorem writeRecordsGo_length : ∀ (ts : List Str) (idx cursor : Nat),
    (writeRecordsGo idx cursor ts).length = ts.length := by
  intro ts
  induction ts with
  | nil => intro idx cursor; rfl
  | cons t ts ih =>
    intro idx cursor
    simp [writeRecordsGo, ih]

theorem writeRecordsGo_mem : ∀ (ts : List Str) (idx cursor : Nat),
    ∀ r ∈ writeRecordsGo idx cursor ts,
      r.char_start ≤ r.char_end ∧ r.char_end - r.char_start = byteLen r.text := by
  intro ts
  induction ts with
  | nil => intro idx cursor r hr; cases hr
  | cons t ts ih =>
    intro idx cursor r hr
    rcases List.mem_cons.mp hr with rfl | hr
    · exact ⟨by simp, by simp⟩
    · exact ih (idx + 1) (cursor + byteLen t) r hr

theorem writeRecordsGo_get : ∀ (ts : List Str) (idx cursor i : Nat)
    (h : i < (writeRecordsGo idx cursor ts).length),
    ((writeRecordsGo idx cursor ts).get ⟨i, h⟩).chunk_index = idx + i ∧
    ((writeRecordsGo idx cursor ts).get ⟨i, h⟩).char_start = cursor + prefixBytes ts i ∧
    ((writeRecordsGo idx cursor ts).get ⟨i, h⟩).char_end = cursor + prefixBytes ts (i + 1) := by
  intro ts
  induction ts with
  | nil =>
    intro idx cursor i h
    simp [writeRecordsGo] at h
  | cons t ts ih =>
    intro idx cursor i h
    cases i with
    | zero =>
      have h0 : prefixBytes (t :: ts) 0 = 0 := prefixBytes_zero _
      have h1 : prefixBytes (t :: ts) 1 = byteLen t := by
        rw [prefixBytes_cons, prefixBytes_zero]
        omega
      refine ⟨rfl, ?_, ?_⟩
      · rw [h0]
        rfl
      · rw [h1]
        rfl
    | succ j =>
      have hj : j < (writeRecordsGo (idx + 1) (cursor + byteLen t) ts).length := by
        have := h
        simp only [writeRecordsGo, List.length_cons] at this
        omega
      have heq :
          (writeRecordsGo idx cursor (t :: ts)).get ⟨j + 1, h⟩ =
            (writeRecordsGo (idx + 1) (cursor + byteLen t) ts).get ⟨j, hj⟩ := rfl
      obtain ⟨h1, h2, h3⟩ := ih (idx + 1) (cursor + byteLen t) j hj
      refine ⟨?_, ?_, ?_⟩
      · rw [heq, h1]; omega
      · rw [heq, h2, prefixBytes_cons]; omega
      · rw [heq, h3, prefixBytes_cons]; omega

theorem lookupKey_mem (k : Str) (v : α) :
    ∀ (m : List (Str × α)), lookupKey k m = some v → (k, v) ∈ m := by
  intro m
  induction m with
  | nil => intro h; cases h
  | cons kv rest ih =>
    intro h
    rw [lookupKey] at h
    by_cases he : kv.1 = k
    · rw [if_pos he] at h
      have hv : kv.2 = v := by injection h
      have hkv : kv = (k, v) := by
        obtain ⟨a, b⟩ := kv
        simp only at he hv
        rw [he, hv]
      rw [← hkv]
      exact List.mem_cons_self kv rest
    · rw [if_neg he] at h
      exact List.mem_cons_of_mem _ (ih h)

theorem lookupKey_isSome_iff (k : Str) :
    ∀ (m : List (Str × α)), (lookupKey k m).isSome ↔ k ∈ m.map Prod.fst := by
  intro m
  induction m with
  | nil =>
    refine ⟨fun h => ?_, fun h => ?_⟩
    · rw [lookupKey] at h
      simp at h
    · simp at h
  | cons kv rest ih =>
    rw [lookupKey]
    by_cases he : kv.1 = k
    · rw [if_pos he]
      refine ⟨fun _ => ?_, fun _ => rfl⟩
      rw [List.map_cons]
      exact List.mem_cons.mpr (Or.inl he.symm)
    · rw [if_neg he]
      simp only [List.map_cons, List.mem_cons]
      rw [ih]
      constructor
      · exact fun h => Or.inr h
      · intro h
        rcases h with h | h
        · exact absurd h.symm he
        · exact h

theorem keys_insertAssoc_mem (k : Str) (v : α) :
    ∀ (m : List (Str × α)), k ∈ m.map Prod.fst →
      (insertAssoc k v m).map Prod.fst = m.map Prod.fst := by
  intro m
  induction m with
  | nil => intro h; cases h
  | cons kv rest ih =>
    intro h
    rw [insertAssoc]
    by_cases he : kv.1 = k
    · rw [if_pos he]
      simp [he]
    · rw [if_neg he]
      simp only [List.map_cons, List.cons.injEq, true_and]
      refine ih ?_
      simp only [List.map_cons, List.mem_cons] at h
      rcases h with h | h
      · exact absurd h.symm he
      · exact h

theorem keys_insertAssoc_not_mem (k : Str) (v : α) :
    ∀ (m : List (Str × α)), k ∉ m.map Prod.fst →
      (insertAssoc k v m).map Prod.fst = m.map Prod.fst ++ [k] := by
  intro m
  induction m with
  | nil => intro h; rfl
  | cons kv rest ih =>
    intro h
    rw [insertAssoc]
    simp only [List.map_cons, List.mem_cons, not_or] at h
    rw [if_neg (fun he => h.1 he.symm)]
    simp only [List.map_cons, List.cons_append, List.cons.injEq, true_and]
    exact ih h.2

theorem keys_removeKey (k : Str) :
    ∀ (m : List (Str × α)),
      (removeKey k m).map Prod.fst = (m.map Prod.fst).filter (fun x => x ≠ k) := by
  intro m
  induction m with
  | nil => rfl
  | cons kv rest ih =>
    simp only [removeKey, List.filter_cons, List.map_cons]
    by_cases he : kv.1 = k
    · simp only [he]
      rw [if_neg (by simp), if_neg (by simp)]
      exact ih
    · rw [if_pos (by simpa using he), if_pos (by simpa using he)]
      simp only [List.map_cons, List.cons.injEq, true_and]
      exact ih

theorem mem_insertAssoc (k : Str) (v : α) (kv : Str × α) :
    ∀ (m : List (Str × α)), kv ∈ insertAssoc k v m → kv = (k, v) ∨ kv ∈ m := by
  intro m
  induction m with
  | nil =>
    intro h
    simp only [insertAssoc, List.mem_singleton] at h
    exact Or.inl h
  | cons kv' rest ih =>
    intro h
    rw [insertAssoc] at h
    by_cases he : kv'.1 = k
    · rw [if_pos he] at h
      rcases List.mem_cons.mp h with rfl | h
      · exact Or.inl rfl
      · exact Or.inr (List.mem_cons_of_mem _ h)
    · rw [if_neg he] at h
      rcases List.mem_cons.mp h with rfl | h
      · exact Or.inr (by simp)
      · rcases ih h with h' | h'
        · exact Or.inl h'
        · exact Or.inr (List.mem_cons_of_mem _ h')

theorem mem_evictLoop_values (maxE : Nat) (kv : Str × α) :
    ∀ (order : List Str) (values : List (Str × α)),
      kv ∈ (evictLoop maxE order values).2 → kv ∈ values := by
  intro order
  induction order with
  | nil => intro values h; exact h
  | cons k rest ih =>
    intro values h
    rw [evictLoop] at h
    by_cases hle : values.length ≤ maxE
    · rw [if_pos hle] at h
      exact h
    · rw [if_neg hle] at h
      exact List.mem_of_mem_filter (ih (removeKey k values) h)

theorem evictLoop_length_le (maxE : Nat) :
    ∀ (order : List Str) (values : List (Str × α)),
      (∀ k, k ∈ values.map Prod.fst → k ∈ order) →
      (evictLoop maxE order values).2.length ≤ maxE := by
  intro order
  induction order with
  | nil =>
    intro values hsub
    have : values.map Prod.fst = [] := by
      cases hv : values.map Prod.fst with
      | nil => rfl
      | cons x xs =>
        exact absurd (hsub x (by rw [hv]; simp)) (List.not_mem_nil x)
    have hv : values = [] := by
      cases values with
      | nil => rfl
      | cons kv rest => simp at this
    rw [evictLoop, hv]
    simp
  | cons k rest ih =>
    intro values hsub
    rw [evictLoop]
    by_cases hle : values.length ≤ maxE
    · rw [if_pos hle]
      exact hle
    · rw [if_neg hle]
      refine ih (removeKey k values) ?_
      intro m hm
      rw [keys_removeKey] at hm
      have hm' := List.mem_of_mem_filter hm
      have hne : m ≠ k := by
        have := List.of_mem_filter hm
        simpa using this
      rcases List.mem_cons.mp (hsub m hm') with h | h
      · exact absurd h hne
      · exact h

theorem evictLoop_keys_iff (maxE : Nat) :
    ∀ (order : List Str) (values : List (Str × α)),
      order.Nodup → (∀ k, k ∈ order ↔ k ∈ values.map Prod.fst) →
      ((evictLoop maxE order values).1.Nodup ∧
        ∀ k, k ∈ (evictLoop maxE order values).1 ↔
          k ∈ (evictLoop maxE order values).2.map Prod.fst) := by
  intro order
  induction order with
  | nil =>
    intro values hnd hiff
    rw [evictLoop]
    exact ⟨hnd, hiff⟩
  | cons k rest ih =>
    intro values hnd hiff
    rw [evictLoop]
    by_cases hle : values.length ≤ maxE
    · rw [if_pos hle]
      exact ⟨hnd, hiff⟩
    · rw [if_neg hle]
      have hndr : rest.Nodup := (List.nodup_cons.mp hnd).2
      have hknr : k ∉ rest := (List.nodup_cons.mp hnd).1
      refine ih (removeKey k values) hndr ?_
      intro m
      rw [keys_removeKey]
      constructor
      · intro hm
        have hmo : m ∈ values.map Prod.fst := (hiff m).mp (List.mem_cons_of_mem _ hm)
        refine List.mem_filter.mpr ⟨hmo, ?_⟩
        simp only [ne_eq, decide_eq_true_eq]
        intro he
        subst he
        exact hknr hm
      · intro hm
        have hmo := List.mem_of_mem_filter hm
        have hne : m ≠ k := by
          have := List.of_mem_filter hm
          simpa using this
        rcases List.mem_cons.mp ((hiff m).mpr hmo) with h | h
        · exact absurd h hne
        · exact h

theorem insertRaw_wf (c : EmbeddingCache α) (t : Str) (v : α) (h : CacheWF c) :
    CacheWF (c.insertRaw t v) := by
  obtain ⟨hnd, hiff⟩ := h
  simp only [EmbeddingCache.insertRaw, hash_text, CacheWF, cacheKeys]
  by_cases hs : (lookupKey t c.values).isSome
  · rw [if_pos hs]
    have hmem : t ∈ c.values.map Prod.fst := (lookupKey_isSome_iff t c.values).mp hs
    rw [keys_insertAssoc_mem t v c.values hmem]
    exact ⟨hnd, hiff⟩
  · rw [if_neg hs]
    have hmem : t ∉ c.values.map Prod.fst := by
      intro hm
      exact hs ((lookupKey_isSome_iff t c.values).mpr hm)
    have hnot_ord : t ∉ c.order := fun ho => hmem ((hiff t).mp ho)
    rw [keys_insertAssoc_not_mem t v c.values hmem]
    constructor
    · exact List.Nodup.append hnd (List.nodup_singleton t)
        (by simpa [List.disjoint_singleton] using hnot_ord)
    · intro m
      simp only [List.mem_append, List.mem_singleton]
      constructor
      · intro hm
        rcases hm with hm | hm
        · exact Or.inl ((hiff m).mp hm)
        · exact Or.inr hm
      · intro hm
        rcases hm with hm | hm
        · exact Or.inl ((hiff m).mpr hm)
        · exact Or.inr hm

theorem insert_wf (c : EmbeddingCache α) (t : Str) (v : α) (h : CacheWF c) :
    CacheWF (c.insert t v) := by
  have h1 := insertRaw_wf c t v h
  obtain ⟨hnd, hiff⟩ := h1
  simp only [EmbeddingCache.insert, CacheWF, cacheKeys]
  exact evictLoop_keys_iff (c.insertRaw t v).max_entries (c.insertRaw t v).order
    (c.insertRaw t v).values hnd hiff

theorem insert_max_entries (c : EmbeddingCache α) (t : Str) (v : α) :
    (c.insert t v).max_entries = c.max_entries := rfl

theorem insert_size_le (c : EmbeddingCache α) (t : Str) (v : α) (h : CacheWF c) :
    (c.insert t v).values.length ≤ c.max_entries := by
  have h1 := insertRaw_wf c t v h
  obtain ⟨hnd, hiff⟩ := h1
  simp only [EmbeddingCache.insert]
  exact evictLoop_length_le (c.insertRaw t v).max_entries (c.insertRaw t v).order
    (c.insertRaw t v).values (fun k hk => (hiff k).mpr hk)

theorem applyCacheOp_wf (c : EmbeddingCache α) (op : CacheOp α) (h : CacheWF c) :
    CacheWF (applyCacheOp c op) := by
  cases op with
  | get t => exact h
  | ins t v => exact insert_wf c t v h

theorem applyCacheOp_max_entries (c : EmbeddingCache α) (op : CacheOp α) :
    (applyCacheOp c op).max_entries = c.max_entries := by
  cases op with
  | get t => rfl
  | ins t v => rfl

theorem applyCacheOps_size_le (maxE : Nat) :
    ∀ (ops : List (CacheOp α)) (c : EmbeddingCache α), CacheWF c →
      c.max_entries = maxE → c.values.length ≤ maxE →
      (applyCacheOps c ops).values.length ≤ maxE := by
  intro ops
  induction ops with
  | nil =>
    intro c hwf hmax hlen
    exact hlen
  | cons op ops ih =>
    intro c hwf hmax hlen
    have hwf' := applyCacheOp_wf c op hwf
    have hmax' : (applyCacheOp c op).max_entries = maxE := by
      rw [applyCacheOp_max_entries, hmax]
    have hlen' : (applyCacheOp c op).values.length ≤ maxE := by
      cases op with
      | get t => exact hlen
      | ins t v =>
        have hs := insert_size_le c t v hwf
        show (c.insert t v).values.length ≤ maxE
        omega
    exact ih (applyCacheOp c op) hwf' hmax' hlen'

theorem empty_wf (maxE : Nat) : CacheWF (EmbeddingCache.empty α maxE) := by
  constructor
  · exact List.nodup_nil
  · intro k
    simp [EmbeddingCache.empty, cacheKeys]

theorem insertRaw_order_new (c : EmbeddingCache α) (t : Str) (v : α)
    (h : c.get t = none) : (c.insertRaw t v).order = c.order ++ [t] := by
  simp only [EmbeddingCache.insertRaw, hash_text]
  rw [if_neg]
  simp only [EmbeddingCache.get, hash_text] at h
  rw [h]
  simp

theorem insertRaw_order_old (c : EmbeddingCache α) (t : Str) (v : α)
    (h : (c.get t).isSome) : (c.insertRaw t v).order = c.order := by
  simp only [EmbeddingCache.insertRaw, hash_text]
  rw [if_pos]
  simpa [EmbeddingCache.get, hash_text] using h

theorem evictLoop_fifo (maxE : Nat) :
    ∀ (order : List Str) (values : List (Str × α)), ∃ n,
      (evictLoop maxE order values).1 = order.drop n ∧
      (evictLoop maxE order values).2 =
        (order.take n).foldl (fun vs k => removeKey k vs) values := by
  intro order
  induction order with
  | nil =>
    intro values
    exact ⟨0, rfl, rfl⟩
  | cons k rest ih =>
    intro values
    rw [evictLoop]
    by_cases hle : values.length ≤ maxE
    · rw [if_pos hle]
      exact ⟨0, rfl, rfl⟩
    · rw [if_neg hle]
      obtain ⟨n, h1, h2⟩ := ih (removeKey k values)
      exact ⟨n + 1, by simpa using h1, by simpa using h2⟩

theorem truncateInput_length_le (maxI : Nat) (t : Str) (h : 0 < maxI) :
    (truncateInput maxI t).length ≤ maxI := by
  simp only [truncateInput]
  by_cases hb : 0 < maxI ∧ maxI < byteLen t
  · rw [if_pos hb]
    simp [List.length_take]
  · rw [if_neg hb]
    have h1 : ¬ maxI < byteLen t := fun hlt => hb ⟨h, hlt⟩
    have h2 := length_le_byteLen t
    omega

theorem truncateInput_ne (maxI : Nat) (t : Str) (h0 : 0 < maxI) (h : maxI < t.length) :
    truncateInput maxI t ≠ t := by
  have hb : maxI < byteLen t := lt_of_lt_of_le h (length_le_byteLen t)
  simp only [truncateInput]
  rw [if_pos ⟨h0, hb⟩]
  intro he
  have hlen := congrArg List.length he
  simp only [List.length_take] at hlen
  omega

theorem keysCharBounded_get_none (maxI : Nat) (c : EmbeddingCache α) (t : Str)
    (h : keysCharBounded maxI c) (ht : maxI < t.length) : c.get t = none := by
  cases hg : c.get t with
  | none => rfl
  | some v =>
    have hmem : (t, v) ∈ c.values :=
      lookupKey_mem t v c.values (by simpa [EmbeddingCache.get, hash_text] using hg)
    have hlen := h (t, v) hmem
    simp only at hlen
    omega

theorem insert_keysCharBounded (maxI : Nat) (c : EmbeddingCache α) (t : Str) (v : α)
    (hc : keysCharBounded maxI c) (ht : t.length ≤ maxI) :
    keysCharBounded maxI (c.insert t v) := by
  intro kv hkv
  have h1 : kv ∈ (c.insertRaw t v).values :=
    mem_evictLoop_values (c.insertRaw t v).max_entries kv (c.insertRaw t v).order
      (c.insertRaw t v).values hkv
  have h2 : kv = (t, v) ∨ kv ∈ c.values := mem_insertAssoc t v kv c.values h1
  rcases h2 with rfl | h2
  · exact ht
  · exact hc kv h2

theorem processMisses_keysCharBounded (embed : Str → α) (maxI : Nat) (h0 : 0 < maxI) :
    ∀ (ts : List Str) (c : EmbeddingCache α), keysCharBounded maxI c →
      keysCharBounded maxI (processMisses embed maxI c ts) := by
  intro ts
  induction ts with
  | nil => intro c hc; exact hc
  | cons t ts ih =>
    intro c hc
    rw [processMisses]
    exact ih _ (insert_keysCharBounded maxI c _ _ hc (truncateInput_length_le maxI t h0))

theorem batchMisses_count (c : EmbeddingCache α) (t : Str) (h : c.get t = none) :
    ∀ (texts : List Str), (batchMisses c texts).count t = texts.count t := by
  intro texts
  induction texts with
  | nil => rfl
  | cons u us ih =>
    simp only [batchMisses, List.filter_cons] at ih ⊢
    by_cases hu : (c.get u).isNone
    · rw [if_pos (by simpa using hu)]
      rw [List.count_cons, List.count_cons, ih]
    · rw [if_neg (by simpa using hu)]
      have hne : u ≠ t := by
        intro he
        subst he
        exact hu (by simp [h])
      rw [ih, List.count_cons]
      simp [hne]

theorem mem_batchMisses (c : EmbeddingCache α) (t : Str) (texts : List Str)
    (h : c.get t = none) (hm : t ∈ texts) : t ∈ batchMisses c texts := by
  simp only [batchMisses, List.mem_filter]
  exact ⟨hm, by simp [h]⟩

theorem collapseWs_chars : ∀ (s : Str) (b : Bool),
    ∀ c ∈ collapseWs b s, c = ' ' ∨ rustIsWhitespace c = false := by
  intro s
  induction s with
  | nil => intro b c hc; cases hc
  | cons d rest ih =>
    intro b c hc
    rw [collapseWs] at hc
    by_cases hws : rustIsWhitespace d
    · rw [if_pos hws] at hc
      by_cases hb : b
      · rw [if_pos hb] at hc
        exact ih true c hc
      · rw [if_neg hb] at hc
        rcases List.mem_cons.mp hc with rfl | hc
        · exact Or.inl rfl
        · exact ih true c hc
    · rw [if_neg hws] at hc
      rcases List.mem_cons.mp hc with rfl | hc
      · exact Or.inr (Bool.not_eq_true _ |>.mp hws)
      · exact ih false c hc

theorem newline_is_ws : rustIsWhitespace '\n' = true := by decide

theorem newline_not_mem_collapseWs (s : Str) (b : Bool) : '\n' ∉ collapseWs b s := by
  intro h
  rcases collapseWs_chars s b '\n' h with h' | h'
  · cases h'
  · rw [newline_is_ws] at h'
    cases h'

theorem splitInclNlGo_no_nl : ∀ (s : Str), '\n' ∉ s → ∀ (acc : Str),
    splitInclNlGo acc s = if (acc ++ s).isEmpty then [] else [acc ++ s] := by
  intro s
  induction s with
  | nil =>
    intro h acc
    simp [splitInclNlGo]
  | cons c rest ih =>
    intro h acc
    have hc : c ≠ '\n' := fun he => h (by simp [he])
    have hrest : '\n' ∉ rest := fun hm => h (List.mem_cons_of_mem _ hm)
    rw [splitInclNlGo, if_neg hc, ih hrest (acc ++ [c])]
    have h1 : (acc ++ [c] ++ rest).isEmpty = false := by
      simp [List.isEmpty_eq_false]
    have h2 : (acc ++ c :: rest).isEmpty = false := by
      simp [List.isEmpty_eq_false]
    rw [h1, h2]
    simp

theorem stripLineEnd_no_nl (s : Str) (h : '\n' ∉ s) : stripLineEnd s = s := by
  simp only [stripLineEnd]
  cases hl : s.getLast? with
  | none => rfl
  | some c =>
    have hc : c ∈ s := List.mem_of_getLast?_eq_some hl
    have hne : c ≠ '\n' := fun he => h (he ▸ hc)
    simp [hne]

theorem rustLines_no_nl (s : Str) (h : '\n' ∉ s) :
    rustLines s = if s.isEmpty then [] else [s] := by
  rw [rustLines, splitInclNlGo_no_nl s h []]
  simp only [List.nil_append]
  by_cases he : s.isEmpty
  · simp [he]
  · simp [he, stripLineEnd_no_nl s h]

theorem push_paragraph_nil_length (cfg : ChunkConfig) (current : Str) :
    (push_paragraph cfg [] current).length ≤ 1 := by
  simp only [push_paragraph]
  by_cases h1 : (rustTrim current).isEmpty
  · rw [if_pos h1]
    simp
  · rw [if_neg h1]
    by_cases h2 : cfg.strip_headers ∧
        ((rustTrim current).head? = some '#' ∨
          (rustTrim current).map asciiLower = "table of contents".toList ∨
          (rustTrim current).map asciiLower = "contents".toList)
    · rw [if_pos h2]
      simp
    · rw [if_neg h2]
      by_cases h3 : byteLen ((rustTrim current).map fun c => if c = '\n' then ' ' else c) <
          cfg.min_paragraph_chars
      · rw [if_pos h3]
        simp
      · rw [if_neg h3]
        simp

theorem insert_empty_get (maxE : Nat) (t : Str) (v : α) (hE : 1 ≤ maxE) :
    ((EmbeddingCache.empty α maxE).insert t v).get t = some v := by
  have h1 : (EmbeddingCache.empty α maxE).insertRaw t v =
      ⟨maxE, [t], [(t, v)]⟩ := by
    simp [EmbeddingCache.insertRaw, EmbeddingCache.empty, hash_text, lookupKey, insertAssoc]
  have h2 : evictLoop (α := α) maxE [t] [(t, v)] = ([t], [(t, v)]) := by
    rw [evictLoop, if_pos (by simpa using hE)]
  simp [EmbeddingCache.insert, h1, h2, EmbeddingCache.get, hash_text, lookupKey]

theorem push_paragraph_nil_current (cfg : ChunkConfig) (out : List Str) :
    push_paragraph cfg out [] = out := by
  simp [push_paragraph, rustTrim, trimStart, trimEnd]

/-- C1 counterexample: with `target_chunk_chars = 5`, `max_chunk_chars = 100`
and `chunk_overlap_chars = 3`, the paragraphs `abcde` and `fghij` produce two
consecutive chunks where the first has more than 3 characters and the overlap
tail joined with the next piece fits well under the cap, yet the second chunk
does not start with the last 3 characters of the first: the assembler applies
the carried overlap only in its overflow branch, never after an emission at
the target size. -/
theorem C1_counterexample :
    build_chunks ["abcde".toList, "fghij".toList] c1cfg
        = ["abcde".toList, "fghij".toList] ∧
    c1cfg.chunk_overlap_chars < ("abcde".toList).length ∧
    byteLen (overlap_tail "abcde".toList c1cfg.chunk_overlap_chars ++
        ' ' :: "fghij".toList) ≤ c1cfg.max_chunk_chars ∧
    ("fghij".toList).take c1cfg.chunk_overlap_chars ≠
      ("abcde".toList).drop (("abcde".toList).length - c1cfg.chunk_overlap_chars) := by
  decide

/-- C1 (amended): the carried overlap `last_overlap` always equals the overlap
tail of the most recently emitted chunk, and it becomes the prefix of the new
chunk under construction exactly when the assembler takes its overflow branch
with a non-empty carried overlap whose composition with the next piece fits
`max_chunk_chars`; in that case the new `current` starts with the last
`chunk_overlap_chars` characters of the previously emitted chunk.  Chunks
that start fresh after an emission at the target size carry no overlap. -/
theorem C1_overlap_only_on_overflow :
    (∀ (cfg : ChunkConfig) (parts : List Str),
      lastOverlapInv cfg (parts.foldl (asmStep cfg) ⟨[], [], []⟩)) ∧
    (∀ (cfg : ChunkConfig) (s : AsmState) (part C : Str),
      lastOverlapInv cfg s →
      s.chunks.getLast? = some C →
      0 < cfg.chunk_overlap_chars →
      cfg.chunk_overlap_chars < C.length →
      ¬s.current.isEmpty →
      cfg.max_chunk_chars < byteLen s.current + byteLen part + 1 →
      byteLen (s.last_overlap ++ ' ' :: part) ≤ cfg.max_chunk_chars →
      (seedCurrent cfg s.current s.last_overlap part).take cfg.chunk_overlap_chars =
        C.drop (C.length - cfg.chunk_overlap_chars)) := by
  constructor
  · intro cfg parts
    exact asmFold_lastOverlapInv cfg parts _ (init_lastOverlapInv cfg)
  · intro cfg s part C hinv hlast hK hKlt hcur hover hfit
    have hlo_eq : s.last_overlap = overlap_tail C cfg.chunk_overlap_chars := by
      rw [lastOverlapInv] at hinv
      rw [hinv, hlast]
    have hlo_len : (overlap_tail C cfg.chunk_overlap_chars).length =
        cfg.chunk_overlap_chars := length_overlap_tail C _ hK hKlt
    have hlo_ne : ¬s.last_overlap.isEmpty := by
      rw [hlo_eq]
      intro he
      rw [List.isEmpty_iff] at he
      rw [he] at hlo_len
      simp at hlo_len
      omega
    rw [seedCurrent_overlap cfg s.current s.last_overlap part hcur hover hlo_ne hfit]
    rw [hlo_eq, overlap_tail_eq_drop C _ hK hKlt]
    have hlen : (C.drop (C.length - cfg.chunk_overlap_chars)).length =
        cfg.chunk_overlap_chars := by
      rw [List.length_drop]
      omega
    have htl := List.take_left (C.drop (C.length - cfg.chunk_overlap_chars)) (' ' :: part)
    rw [hlen] at htl
    exact htl

/-- Witness for C1 (amended) at a concrete state: chunks = [abc], an
18-character current, carried overlap bc, next piece pqrst, cap 20. -/
theorem C1_overlap_only_on_overflow_witness :
    (seedCurrent ⟨false, false, false, 0, 100, 5, 20, 2⟩ "abcdefghijklmnopqr".toList
        ['b', 'c'] "pqrst".toList).take 2 = (['a', 'b', 'c'] : Str).drop 1 :=
  C1_overlap_only_on_overflow.2 ⟨false, false, false, 0, 100, 5, 20, 2⟩
    ⟨[['a', 'b', 'c']], "abcdefghijklmnopqr".toList, ['b', 'c']⟩ "pqrst".toList
    ['a', 'b', 'c'] rfl rfl (by decide) (by decide) (by decide) (by decide) (by decide)

/-- C2 (code bug): with `target_chunk_chars = 10` and `max_chunk_chars = 10`,
feeding the paragraphs `aaaa` and `bbbbbbb` makes the second piece overflow a
non-empty `current`; the assembler's overflow branch overwrites `current`
without appending it to the chunk list, so the text `aaaa` is silently lost
and only one chunk is produced, contradicting the specified `close current`
behaviour under which no text of the old `current` is lost. -/
theorem C2_discarded_current :
    build_chunks ["aaaa".toList, "bbbbbbb".toList] c2cfg = ["bbbbbbb".toList] := by
  decide

/-- C3 counterexample: with `max_chunk_chars = 3`, a paragraph of two 2-byte
characters is emitted as a single 4-byte chunk although it is not an
unsplittable word: it splits into two character pieces of 2 bytes each, both
within the cap.  The slicing loop cuts only at a character boundary whose
byte offset has already reached the cap, so multi-byte text may overshoot. -/
theorem C3_counterexample :
    build_chunks [['а', 'а']] c3cfg = [['а', 'а']] ∧
    c3cfg.max_chunk_chars < byteLen ['а', 'а'] ∧
    ['а', 'а'] = ['а'] ++ ['а'] ∧
    byteLen ['а'] ≤ c3cfg.max_chunk_chars := by
  decide

/-- C3 (amended): for every paragraph list whose paragraphs each contain a
non-whitespace character and every config with `max_chunk_chars ≥ 1`, every
chunk emitted by `build_chunks` has byte length at most
`max_chunk_chars + 3`: pieces within the cap assemble into chunks within the
cap, and a slice of an over-long word can overshoot the cap only by the tail
of one multi-byte character (at most 3 bytes). -/
theorem C3_chunk_bytes_bounded (cfg : ChunkConfig) (paragraphs : List Str)
    (hM : 1 ≤ cfg.max_chunk_chars) (hnw : ∀ p ∈ paragraphs, hasNonWs p) :
    ∀ chunk ∈ build_chunks paragraphs cfg, byteLen chunk ≤ cfg.max_chunk_chars + 3 := by
  intro chunk hc
  simp only [build_chunks] at hc
  have hparts : ∀ p ∈ paragraphs.flatMap (boundedParts cfg),
      byteLen p ≤ cfg.max_chunk_chars + 3 := by
    intro p hp
    obtain ⟨para, hpara, hp⟩ := List.mem_flatMap.mp hp
    exact boundedParts_bound cfg para hM (hnw para hpara) p hp
  obtain ⟨hchunks, hcur⟩ := asmFold_bound cfg (cfg.max_chunk_chars + 3) (by omega)
    (paragraphs.flatMap (boundedParts cfg)) ⟨[], [], []⟩ hparts
    (by intro c hc; cases hc) (by simp)
  rcases List.mem_append.mp hc with h | h
  · exact hchunks chunk h
  · by_cases he :
        ((paragraphs.flatMap (boundedParts cfg)).foldl (asmStep cfg)
          ⟨[], [], []⟩).current.isEmpty
    · rw [if_pos he] at h
      cases h
    · rw [if_neg he] at h
      simp only [List.mem_singleton] at h
      subst h
      exact hcur

/-- Witness for C3 (amended) at the paragraph `ab` under the C1 fixture
configuration. -/
theorem C3_chunk_bytes_bounded_witness :
    byteLen "ab".toList ≤ c1cfg.max_chunk_chars + 3 :=
  C3_chunk_bytes_bounded c1cfg ["ab".toList] (by decide)
    (by
      intro p hp
      simp only [List.mem_singleton] at hp
      subst hp
      exact ⟨'a', by decide, by decide⟩)
    "ab".toList (by decide)

/-- C4: for every chunk list, the records written by the writer loop of
`chunk_file` satisfy: one record per chunk; `char_start ≤ char_end` with
`char_end - char_start` equal to the byte length of the record's text;
`chunk_index` is the 0-based position; the record at position `i` has
`char_start` equal to the total byte length of the preceding chunks (so the
first record starts at 0); and each record's `char_start` equals the
previous record's `char_end` (the running cursor advances by the chunk's
byte length). -/
theorem C4_record_offsets (chunks : List Str) :
    (chunk_file_records chunks).length = chunks.length ∧
    (∀ r ∈ chunk_file_records chunks,
      r.char_start ≤ r.char_end ∧ r.char_end - r.char_start = byteLen r.text) ∧
    (∀ (i : Nat) (h : i < (chunk_file_records chunks).length),
      ((chunk_file_records chunks).get ⟨i, h⟩).chunk_index = i ∧
      ((chunk_file_records chunks).get ⟨i, h⟩).char_start = prefixBytes chunks i ∧
      ((chunk_file_records chunks).get ⟨i, h⟩).char_end = prefixBytes chunks (i + 1)) ∧
    (∀ (h : 0 < (chunk_file_records chunks).length),
      ((chunk_file_records chunks).get ⟨0, h⟩).char_start = 0) ∧
    (∀ (i : Nat) (h : i + 1 < (chunk_file_records chunks).length),
      ((chunk_file_records chunks).get ⟨i + 1, h⟩).char_start =
        ((chunk_file_records chunks).get ⟨i, Nat.lt_of_succ_lt h⟩).char_end) := by
  simp only [chunk_file_records]
  refine ⟨writeRecordsGo_length chunks 0 0, writeRecordsGo_mem chunks 0 0, ?_, ?_, ?_⟩
  · intro i h
    obtain ⟨h1, h2, h3⟩ := writeRecordsGo_get chunks 0 0 i h
    refine ⟨?_, ?_, ?_⟩
    · rw [h1]
      omega
    · rw [h2]
      omega
    · rw [h3]
      omega
  · intro h
    obtain ⟨_, h2, _⟩ := writeRecordsGo_get chunks 0 0 0 h
    rw [h2, prefixBytes_zero]
  · intro i h
    obtain ⟨_, h2, _⟩ := writeRecordsGo_get chunks 0 0 (i + 1) h
    obtain ⟨_, _, h3⟩ := writeRecordsGo_get chunks 0 0 i (Nat.lt_of_succ_lt h)
    rw [h2, h3]

/-- Witness for C4 at the chunk list [a, bc]: the second record starts where
the first ends. -/
theorem C4_record_offsets_witness :
    ((chunk_file_records [['a'], ['b', 'c']]).get ⟨1, by decide⟩).char_start =
      ((chunk_file_records [['a'], ['b', 'c']]).get ⟨0, by decide⟩).char_end :=
  (C4_record_offsets [['a'], ['b', 'c']]).2.2.2.2 0 (by decide)

/-- C5 counterexample: against a 3-byte cap, a 4-byte word of two 2-byte
characters is returned as a single piece of 4 bytes, exceeding the cap: the
long-word slicer cuts only at a character boundary whose offset has already
reached the cap. -/
theorem C5_counterexample :
    split_by_max_bytes ['а', 'а'] 3 = [['а', 'а']] ∧ 3 < byteLen ['а', 'а'] := by
  decide

/-- C5 (amended): for `M ≥ 1` and text containing a non-whitespace character
whose characters all have UTF-8 size at most `szb`, every piece returned by
`split_by_max_bytes` has byte length at most `M + (szb - 1)` — at most `M`
for single-byte text and at most `M + 3` in general; the splitter returns at
least one piece for non-empty input; and slicing an over-long word
concatenates back to the word, so no character is ever bisected. -/
theorem C5_splitter_bounded :
    (∀ (text : Str) (M szb : Nat), 1 ≤ M → 1 ≤ szb →
      (∀ c ∈ text, c.utf8Size ≤ szb) → hasNonWs text →
      ∀ p ∈ split_by_max_bytes text M, byteLen p ≤ M + (szb - 1)) ∧
    (∀ (text : Str) (M : Nat), 1 ≤ M → text ≠ [] → split_by_max_bytes text M ≠ []) ∧
    (∀ (word : Str) (M : Nat), (sliceLongWord word M).flatten = word) :=
  ⟨split_by_max_bytes_bound, split_by_max_bytes_ne_nil, sliceLongWord_join⟩

/-- Witness for C5 (amended) on the single-byte text `ab` with cap 2. -/
theorem C5_splitter_bounded_witness :
    byteLen "ab".toList ≤ 2 + (1 - 1) :=
  C5_splitter_bounded.1 "ab".toList 2 1 (by decide) (by decide) (by decide)
    ⟨'a', by decide, by decide⟩ "ab".toList (by decide)

/-- C6 counterexample: a single batch containing two records with identical
text issues two embedding requests, not one, because every cache probe of the
batch happens before any insertion: both probes of the empty cache (capacity
10) miss and both texts are embedded. -/
theorem C6_counterexample :
    (process_batch (fun _ => (0 : Nat)) 0 (EmbeddingCache.empty Nat 10)
      ["t".toList, "t".toList]).1 = 2 := by
  decide

/-- C6 (amended): when the two identical-text records are processed in
different batches, the text is not altered by truncation, and the cache has
capacity at least 1, the first batch issues exactly one embedding request and
the second batch is served entirely from the cache; within a single batch,
identical texts each trigger a request (see the counterexample). -/
theorem C6_cross_batch_single_request (α : Type) (embed : Str → α)
    (maxI maxE : Nat) (t : Str) (hE : 1 ≤ maxE) (htr : truncateInput maxI t = t) :
    (process_batch embed maxI (EmbeddingCache.empty α maxE) [t]).1 = 1 ∧
    (process_batch embed maxI
      (process_batch embed maxI (EmbeddingCache.empty α maxE) [t]).2 [t]).1 = 0 := by
  have hget1 : (EmbeddingCache.empty α maxE).get t = none := rfl
  have hm1 : batchMisses (EmbeddingCache.empty α maxE) [t] = [t] := by
    simp [batchMisses, hget1]
  refine ⟨by simp [process_batch, hm1], ?_⟩
  have hc1 : (process_batch embed maxI (EmbeddingCache.empty α maxE) [t]).2 =
      (EmbeddingCache.empty α maxE).insert t (embed t) := by
    simp [process_batch, hm1, processMisses, htr]
  rw [hc1]
  have hget2 := insert_empty_get maxE t (embed t) hE
  simp [process_batch, batchMisses, hget2]

/-- Witness for C6 (amended): one text in two consecutive singleton batches,
capacity 1, no truncation. -/
theorem C6_cross_batch_single_request_witness :
    (process_batch (fun _ => (0 : Nat)) 0 (EmbeddingCache.empty Nat 1)
        ["t".toList]).1 = 1 ∧
    (process_batch (fun _ => (0 : Nat)) 0
      (process_batch (fun _ => (0 : Nat)) 0 (EmbeddingCache.empty Nat 1)
        ["t".toList]).2 ["t".toList]).1 = 0 :=
  C6_cross_batch_single_request Nat (fun _ => 0) 0 1 "t".toList (by decide) (by decide)

/-- C7: the embedding cache is pure FIFO with bounded size: starting from the
empty cache with capacity at least 1, any sequence of get and insert
operations leaves at most `max_entries` stored entries; an insertion appends
the key to the order queue exactly when the key is new; the eviction loop
removes an initial segment of the order queue (the oldest-inserted keys) from
both the queue and the map; and a get never changes the cache state, hence
never the eviction order. -/
theorem C7_cache_fifo_bounded :
    (∀ (α : Type) (maxE : Nat) (ops : List (CacheOp α)), 1 ≤ maxE →
      (applyCacheOps (EmbeddingCache.empty α maxE) ops).values.length ≤ maxE) ∧
    (∀ (α : Type) (c : EmbeddingCache α) (t : Str) (v : α),
      ((c.get t).isSome → (c.insertRaw t v).order = c.order) ∧
      (c.get t = none → (c.insertRaw t v).order = c.order ++ [t])) ∧
    (∀ (α : Type) (maxE : Nat) (order : List Str) (values : List (Str × α)), ∃ n,
      (evictLoop maxE order values).1 = order.drop n ∧
      (evictLoop maxE order values).2 =
        (order.take n).foldl (fun vs k => removeKey k vs) values) ∧
    (∀ (α : Type) (c : EmbeddingCache α) (t : Str),
      applyCacheOp c (CacheOp.get t) = c) := by
  refine ⟨?_, ?_, ?_, ?_⟩
  · intro α maxE ops hE
    exact applyCacheOps_size_le maxE ops (EmbeddingCache.empty α maxE)
      (empty_wf maxE) rfl (by simp [EmbeddingCache.empty])
  · intro α c t v
    exact ⟨insertRaw_order_old c t v, insertRaw_order_new c t v⟩
  · intro α maxE order values
    exact evictLoop_fifo maxE order values
  · intro α c t
    rfl

/-- Witness for C7: two insertions into a capacity-1 cache keep at most one
entry. -/
theorem C7_cache_fifo_bounded_witness :
    (applyCacheOps (EmbeddingCache.empty Nat 1)
      [CacheOp.ins ['a'] 1, CacheOp.ins ['b'] 2]).values.length ≤ 1 :=
  C7_cache_fifo_bounded.1 Nat 1 [CacheOp.ins ['a'] 1, CacheOp.ins ['b'] 2] (by decide)

/-- C8 counterexample: a transport-level failure of the pre-create request
(`req.send()` returning an error) is re-raised by the `?` operator, so the
collection-creation step returns that error instead of success and the run
aborts; the claim's `for every failure the run proceeds` does not hold for
transport failures. -/
theorem C8_counterexample :
    ensure_qdrant_collection (Except.error "transport failure" : Except String Nat) =
      (Except.error "transport failure", false) := rfl

/-- C8 (amended): every HTTP response actually received for the pre-create
request, including every non-2xx failure status, is logged (the warning flag
is set) and ignored: the step returns success.  Only transport-level failures
without a response propagate as errors. -/
theorem C8_http_failure_ignored (ε : Type) (status : Nat)
    (h : statusIsSuccess status = false) :
    ensure_qdrant_collection (Except.ok status : Except ε Nat) =
      (Except.ok (), true) := by
  simp [ensure_qdrant_collection, h]

/-- Witness for C8 (amended) at a 409 Conflict response (the collection
already exists). -/
theorem C8_http_failure_ignored_witness :
    ensure_qdrant_collection (Except.ok 409 : Except String Nat) =
      (Except.ok (), true) :=
  C8_http_failure_ignored String 409 (by decide)

/-- C9: with `collapse_whitespace` enabled, every character of the
Normalizer's output is either an ASCII space or a non-whitespace character —
in particular the output contains no newline, whatever the external NFKC
transformation did — and consequently the Paragraphizer emits at most one
paragraph from the collapsed text: paragraph boundaries cannot survive
whitespace collapsing. -/
theorem C9_collapse_kills_paragraphs (nfkc : Str → Str) (cfg : ChunkConfig)
    (input : Str) (hcw : cfg.collapse_whitespace = true) :
    '\n' ∉ normalize_text nfkc input cfg ∧
    (∀ c ∈ normalize_text nfkc input cfg, c = ' ' ∨ rustIsWhitespace c = false) ∧
    (split_paragraphs (normalize_text nfkc input cfg) cfg).length ≤ 1 := by
  have hnorm : normalize_text nfkc input cfg =
      collapseWs false (if cfg.normalize_unicode then nfkc input else input) := by
    simp [normalize_text, hcw]
  refine ⟨?_, ?_, ?_⟩
  · rw [hnorm]
    exact newline_not_mem_collapseWs _ false
  · intro c hc
    rw [hnorm] at hc
    exact collapseWs_chars _ false c hc
  · rw [hnorm]
    have hnl : '\n' ∉ collapseWs false
        (if cfg.normalize_unicode then nfkc input else input) :=
      newline_not_mem_collapseWs _ false
    have hlines := rustLines_no_nl _ hnl
    simp only [split_paragraphs, hlines]
    by_cases he : (collapseWs false
        (if cfg.normalize_unicode then nfkc input else input)).isEmpty
    · rw [if_pos he]
      simp only [List.foldl_nil]
      exact push_paragraph_nil_length cfg []
    · rw [if_neg he]
      simp only [List.foldl_cons, List.foldl_nil, splitParagraphsStep]
      by_cases htr : (rustTrim (collapseWs false
          (if cfg.normalize_unicode then nfkc input else input))).isEmpty
      · rw [if_pos htr]
        simp only [push_paragraph_nil_current]
        exact push_paragraph_nil_length cfg []
      · rw [if_neg htr]
        exact push_paragraph_nil_length cfg _

/-- Witness for C9 on the input `a b` with collapsing enabled. -/
theorem C9_collapse_kills_paragraphs_witness :
    (split_paragraphs
      (normalize_text id "a b".toList ⟨false, true, false, 0, 100, 5, 100, 3⟩)
      ⟨false, true, false, 0, 100, 5, 100, 3⟩).length ≤ 1 :=
  (C9_collapse_kills_paragraphs id ⟨false, true, false, 0, 100, 5, 100, 3⟩
    "a b".toList rfl).2.2

/-- C10: the batch loop probes the cache with the record's original text but
stores vectors under the truncated text.  For every record whose character
count exceeds `max_input_chars > 0`: the stored key differs from the probed
key; probing any cache whose stored keys all have at most `max_input_chars`
characters misses; batch processing preserves that key bound (all insertions
go through truncation); and every occurrence of such a text in a batch lands
in the miss list, i.e. triggers a fresh embedding request. -/
theorem C10_truncated_text_never_hits :
    (∀ (maxI : Nat) (t : Str), 0 < maxI → maxI < t.length →
      truncateInput maxI t ≠ t) ∧
    (∀ (α : Type) (maxI : Nat) (c : EmbeddingCache α) (t : Str),
      keysCharBounded maxI c → maxI < t.length → c.get t = none) ∧
    (∀ (α : Type) (embed : Str → α) (maxI : Nat) (c : EmbeddingCache α)
      (texts : List Str), 0 < maxI → keysCharBounded maxI c →
      keysCharBounded maxI (process_batch embed maxI c texts).2) ∧
    (∀ (α : Type) (maxI : Nat) (c : EmbeddingCache α) (texts : List Str) (t : Str),
      keysCharBounded maxI c → maxI < t.length →
      (batchMisses c texts).count t = texts.count t) := by
  refine ⟨truncateInput_ne, ?_, ?_, ?_⟩
  · intro α maxI c t hc ht
    exact keysCharBounded_get_none maxI c t hc ht
  · intro α embed maxI c texts h0 hc
    exact processMisses_keysCharBounded embed maxI h0 (batchMisses c texts) c hc
  · intro α maxI c texts t hc ht
    exact batchMisses_count c t (keysCharBounded_get_none maxI c t hc ht) texts

/-- Witness for C10: probing the empty cache (whose keys are trivially
bounded by 1 character) with a 2-character text misses. -/
theorem C10_truncated_text_never_hits_witness :
    (EmbeddingCache.empty Nat 5).get "ab".toList = none :=
  C10_truncated_text_never_hits.2.1 Nat 1 (EmbeddingCache.empty Nat 5) "ab".toList
    (fun kv hkv => absurd hkv (List.not_mem_nil kv)) (by decide)
